import Mathlib

/-!
Verification of the Go package `grabber` (platform identification, argument building, file
type classification, the download scan and the re-encoding in place) and of the cleanup of
its chat integration.

The file is a shallow embedding of `grabber.go`, `options.go`, `utils.go` and of the download
step of `examples/telegram/main.go`, together with the functions of the Go standard library
they call (`strings`, `unicode`, `path/filepath` with the Unix separator), followed by the
theorems about them.

Conventions of the embedding:

* Go strings are modelled by `String`, that is by sequences of Unicode scalar values (valid
  UTF-8); `len` is the length in bytes;
* the result `(*url.URL, error)` of `url.Parse` is an `Option URL`, and `url.Parse` itself,
  which belongs to the standard library, is a parameter `urlParse` of `IdentifyPlatform`;
* the case table of the `unicode` package (used for non-ASCII runes only) is a parameter
  `caseTable`;
* a Go `error` is modelled by its message, and a pair `(results, error)` by `Except`;
* the calls that touch the outside world are given by their outcomes: `os.MkdirAll`, the
  call `client.Run` of the yt-dlp client (the pair of result and error it returns) and
  `os.ReadDir` are the fields of an `Env`; `exec.LookPath`, the `ffmpeg` run, `os.Rename` and
  `os.Remove` are the fields of a `ReencodeEnv`, over a file system that maps a path to the
  content of the file there; logging is not modelled;
* the receiver of a method is an explicit argument, left out where the method does not read it.
-/

namespace grabber

/-! ## Package `unicode` and package `strings` -/

/-- Go's `unicode.ToLower`: the ASCII range is handled inline, every other rune is looked up in the
case table of the package. -/
def unicodeToLower (caseTable : Char → Char) (r : Char) : Char :=
  if r.toNat ≤ 0x7F then
    if 'A'.toNat ≤ r.toNat ∧ r.toNat ≤ 'Z'.toNat then Char.ofNat (r.toNat + ('a'.toNat - 'A'.toNat))
    else r
  else caseTable r

/-- Go's `strings.ToLower`: every rune of `s` mapped by `unicode.ToLower`. -/
def ToLower (caseTable : Char → Char) (s : String) : String :=
  ⟨s.data.map (unicodeToLower caseTable)⟩

/-- Go's `strings.Contains`: `substr` occurs in `s` as a contiguous block. -/
def Contains (s substr : String) : Bool :=
  decide (substr.data <:+: s.data)

/-- Go's `strings.HasPrefix`: `s` begins with `pre`. -/
def HasPrefix (s pre : String) : Bool :=
  decide (pre.data <+: s.data)

/-- Go's `strings.HasSuffix`: `s` ends with `suf`. -/
def HasSuffix (s suf : String) : Bool :=
  decide (suf.data <:+ s.data)

/-! ## Package `path/filepath` (Unix: the separator is `/`) -/

/-- The scan of `filepath.Ext`, from the last byte of the path backwards: `rpath` is the part of
the path still to be read, in reverse, and `acc` the bytes already passed. The scan stops with
the empty extension at a separator or at the start of the path, and with the suffix from the
dot on at the first dot. -/
def extLoop : List Char → List Char → List Char
  | [], _ => []
  | c :: rest, acc =>
    if c = '/' then [] else if c = '.' then c :: acc else extLoop rest (c :: acc)

/-- Go's `filepath.Ext`: the suffix beginning at the final dot in the final element of `path`;
empty if there is no dot. -/
def Ext (path : String) : String :=
  ⟨extLoop path.data.reverse []⟩

/-- The inner loop of the ".." case of `filepath.Clean`, on the output buffer held in reverse
(last byte first): the head is the byte at index `w` after the first `out.w--`; further bytes
are dropped while `out.w > dotdot` and the byte at index `w` is not a separator. -/
def backtrack (dotdot : Nat) : List Char → List Char
  | [] => []
  | c :: rest => if rest.length > dotdot ∧ c ≠ '/' then backtrack dotdot rest else rest

/-- The main loop of `filepath.Clean`: `path` is the unread input (from index `r` on), `rout`
the output buffer in reverse, `dotdot` the index where ".." must stop. -/
def cleanLoop (rooted : Bool) (path : List Char) (rout : List Char) (dotdot : Nat) : List Char :=
  match path with
  | [] => rout
  | c :: rest =>
    if c = '/' then
      -- empty path element
      cleanLoop rooted rest rout dotdot
    else if c = '.' ∧ (rest = [] ∨ rest.head? = some '/') then
      -- . element
      cleanLoop rooted rest rout dotdot
    else if c = '.' ∧ rest.head? = some '.' ∧ (rest.tail = [] ∨ rest.tail.head? = some '/') then
      -- .. element: remove to last separator
      if rout.length > dotdot then
        -- can backtrack
        cleanLoop rooted rest.tail (backtrack dotdot rout) dotdot
      else if rooted = false then
        -- cannot backtrack, but not rooted, so append .. element
        let rout1 := if rout.length > 0 then '/' :: rout else rout
        cleanLoop rooted rest.tail ('.' :: '.' :: rout1) (rout1.length + 2)
      else
        cleanLoop rooted rest.tail rout dotdot
    else
      -- real path element: add slash if needed, then copy the element
      let rout1 :=
        if (rooted = true ∧ rout.length ≠ 1) ∨ (rooted = false ∧ rout.length ≠ 0) then '/' :: rout
        else rout
      cleanLoop rooted (rest.dropWhile (· ≠ '/'))
        ((rest.takeWhile (· ≠ '/')).reverse ++ c :: rout1) dotdot
termination_by path.length
decreasing_by
  all_goals simp_wf
  all_goals first
    | omega
    | exact Nat.lt_succ_of_le (List.length_tail rest ▸ Nat.sub_le _ _)
    | exact Nat.lt_succ_of_le (List.dropWhile_suffix _).length_le

/-- Go's `filepath.Clean`: the shortest path name equivalent to `path` by purely lexical
processing. -/
def Clean (path : String) : String :=
  if path = "" then "."
  else
    let rooted := decide (path.data.head? = some '/')
    let rout :=
      if rooted then cleanLoop true path.data.tail ['/'] 1 else cleanLoop false path.data [] 0
    -- turn empty string into "."
    if rout.length = 0 then "." else ⟨rout.reverse⟩

/-- Go's `filepath.Join` of two elements: empty elements before the first non-empty one are
ignored, the rest is joined with the separator and cleaned; the result is empty when both
elements are. -/
def Join (a b : String) : String :=
  if a ≠ "" then Clean (a ++ "/" ++ b)
  else if b ≠ "" then Clean b
  else ""

/-- The names a directory listing can hold: not empty, without separator, and neither "." nor
"..". -/
def validName (name : String) : Prop :=
  name ≠ "" ∧ '/' ∉ name.data ∧ name ≠ "." ∧ name ≠ ".."

instance (name : String) : Decidable (validName name) := by
  unfold validName
  infer_instance

/-! ## `grabber.go`: types -/

/-- Platform represents the supported platforms grabber can download. -/
inductive Platform where
  | Tiktok
  | InstagramReels
  | Twitter
  | YouTube
  | Unknown
  deriving DecidableEq, Repr

/-- MediaType represents the type of media downloaded. -/
inductive MediaType where
  | Photo
  | Video
  | Animation
  | None
  deriving DecidableEq, Repr

/-- The two observations `IdentifyPlatform` makes of a parsed `url.URL`: the result of the
accessor `Hostname()` and the field `Path`. -/
structure URL where
  Hostname : String
  Path : String
  deriving DecidableEq, Repr

/-- FileResult represents the result of a download operation. -/
structure FileResult where
  Name : String
  Path : String
  Ext : String
  MediaType : MediaType
  deriving DecidableEq, Repr

/-- Options represents configuration options for the Grabber. -/
structure Options where
  BaseDir : String
  MaxFileSize : String
  Format : String
  RestrictFilenames : Bool
  RecodeVideo : String
  NoPlaylist : Bool
  WriteThumbnail : Bool
  OutputTemplate : String
  deriving DecidableEq, Repr

/-- Grabber handles media downloading functionality. -/
structure Grabber where
  options : Options
  deriving DecidableEq, Repr

/-! ## `options.go` -/

/-- The default configuration. -/
def defaultOptions : Options :=
  { BaseDir := "media/"
    MaxFileSize := "49M"
    Format := "bestvideo[ext=mp4]+bestaudio[ext=m4a]/best[ext=mp4]/best"
    RestrictFilenames := true
    NoPlaylist := true
    WriteThumbnail := true
    RecodeVideo := ""
    OutputTemplate := "media.%(ext)s" }

/-- New creates a new Grabber instance. -/
def New : Grabber :=
  { options := defaultOptions }

/-- WithOptions creates a new Grabber instance with the provided options. -/
def Grabber.WithOptions (_g : Grabber) (options : Options) : Grabber :=
  { options := options }

/-! ## `grabber.go`: `IdentifyPlatform` -/

/-- IdentifyPlatform checks the domain of the URL to determine the platform. -/
def IdentifyPlatform (caseTable : Char → Char) (urlParse : String → Option URL)
    (webUrl : String) : Platform :=
  match urlParse webUrl with
  | none => Platform.Unknown
  | some parsedUrl =>
    let host := ToLower caseTable parsedUrl.Hostname
    let path := ToLower caseTable parsedUrl.Path
    if Contains host "tiktok.com" then Platform.Tiktok
    else if Contains host "instagram.com" && HasPrefix path "/reel/" then Platform.InstagramReels
    else if Contains host "twitter.com" || Contains host "x.com" then Platform.Twitter
    else if Contains host "youtube.com" || Contains host "youtu.be" then Platform.YouTube
    else Platform.Unknown

/-! ## `grabber.go`: `buildArgs`, `findFileType`, `Download` -/

/-- Helper that builds the arguments for yt-dlp based on the provided options. -/
def Grabber.buildArgs (g : Grabber) (outputPath : String) (mediaUrl : String) : List String :=
  let args := ["-o", Join outputPath g.options.OutputTemplate]
  let args := if g.options.RestrictFilenames then args ++ ["--restrict-filenames"] else args
  let args := if g.options.NoPlaylist then args ++ ["--no-playlist"] else args
  let args :=
    if g.options.MaxFileSize ≠ "" then args ++ ["--max-filesize", g.options.MaxFileSize] else args
  let args := if g.options.WriteThumbnail then args ++ ["--write-thumbnail"] else args
  let args := if g.options.Format ≠ "" then args ++ ["--format", g.options.Format] else args
  let args :=
    if g.options.RecodeVideo ≠ "" then args ++ ["--recode-video", g.options.RecodeVideo] else args
  args ++ [mediaUrl]

/-- Helper that determines the media type based on the file extension. -/
def findFileType (ext : String) : MediaType :=
  match ext with
  | ".mp4" | ".mkv" | ".webm" | ".mov" => MediaType.Video
  | ".jpg" | ".jpeg" | ".png" | ".webp" => MediaType.Photo
  | ".gif" => MediaType.Animation
  | _ => MediaType.None

/-- An entry of a directory listing (`os.DirEntry`): its name and whether it is a directory. -/
structure DirEntry where
  Name : String
  IsDir : Bool
  deriving DecidableEq, Repr

/-- The fields of the result of a yt-dlp run that `Download` reads. -/
structure RunResult where
  ExitCode : Int
  Stderr : String
  deriving DecidableEq, Repr

/-- What the call `client.Run` of the yt-dlp client returns: the pair `(result, err)`. The
client may report a failed run through `err` and still fill in `result`; `Download` reads
`result` only when `err` is nil. -/
structure RunReturn where
  result : RunResult
  err : Option String
  deriving DecidableEq, Repr

/-- The outcomes of the calls `Download` makes to the outside world: `os.MkdirAll` (its error,
if any), the yt-dlp run on an argument list, and `os.ReadDir`. -/
structure Env where
  mkdirAll : String → Option String
  run : List String → RunReturn
  readDir : String → Except String (List DirEntry)

/-- One iteration of the loop of `Download` over the directory listing; `primaryMediaFiles` is
the list built so far. -/
def scanFile (caseTable : Char → Char) (outputPath : String)
    (primaryMediaFiles : List FileResult) (file : DirEntry) : List FileResult :=
  -- skip directories and incomplete files
  if file.IsDir || HasSuffix file.Name ".part" then primaryMediaFiles
  else
    let currentFilePath := Join outputPath file.Name
    let ext := ToLower caseTable (Ext currentFilePath)
    let mt := findFileType ext
    if mt = MediaType.None then primaryMediaFiles
    else
      primaryMediaFiles ++
        [{ Name := file.Name, Path := currentFilePath, Ext := ext, MediaType := mt }]

/-- Download downloads media from the provided URL using yt-dlp. -/
def Grabber.Download (caseTable : Char → Char) (env : Env) (g : Grabber) (mediaUrl : String)
    (name : String) : Except String (List FileResult) :=
  let outputPath := Join g.options.BaseDir name
  let args := g.buildArgs outputPath mediaUrl
  match env.mkdirAll outputPath with
  | some err =>
    Except.error ("could not create download directory '" ++ outputPath ++ "': " ++ err)
  | none =>
    -- execute yt-dlp
    let ret := env.run args
    match ret.err with
    | some err => Except.error ("yt-dlp error: " ++ err)
    | none =>
      -- check if command was successful
      if ret.result.ExitCode ≠ 0 then
        Except.error ("yt-dlp failed with exit code " ++ toString ret.result.ExitCode ++ ": " ++
          ret.result.Stderr)
      else
        match env.readDir outputPath with
        | Except.error err =>
          Except.error ("could not read download directory '" ++ outputPath ++ "': " ++ err)
        | Except.ok files =>
          let primaryMediaFiles := files.foldl (scanFile caseTable outputPath) []
          if primaryMediaFiles.length = 0 then
            Except.error ("could not find primary downloaded media file from yt-dlp for '" ++
              mediaUrl ++ "'")
          else Except.ok primaryMediaFiles

/-- An environment in which the directory is created, the tool exits with status 0 and the
directory listing is `files`. -/
def successEnv (files : List DirEntry) : Env :=
  { mkdirAll := fun _ => none
    run := fun _ => { result := { ExitCode := 0, Stderr := "" }, err := none }
    readDir := fun _ => Except.ok files }

/-! ### The rule table of the specification -/

/-- One matching rule of the specification: a condition on the lowercased hostname and the
lowercased path, and the platform it yields. -/
structure Rule where
  cond : String → String → Bool
  platform : Platform

/-- The four rules of the specification, in priority order. -/
def specRules : List Rule :=
  [ ⟨fun host _ => Contains host "tiktok.com", Platform.Tiktok⟩,
    ⟨fun host path => Contains host "instagram.com" && HasPrefix path "/reel/",
      Platform.InstagramReels⟩,
    ⟨fun host _ => Contains host "twitter.com" || Contains host "x.com", Platform.Twitter⟩,
    ⟨fun host _ => Contains host "youtube.com" || Contains host "youtu.be", Platform.YouTube⟩ ]

/-- First-match-wins evaluation of a rule list; `Unknown` when no rule matches. -/
def firstMatch : List Rule → String → String → Platform
  | [], _, _ => Platform.Unknown
  | r :: rest, host, path => if r.cond host path then r.platform else firstMatch rest host path

/-- A parser that returns the same parsed URL for every input; it stands for `url.Parse` at
one concrete input. -/
def parsesTo (u : URL) : String → Option URL :=
  fun _ => some u

/-- The case table that leaves every non-ASCII rune unchanged. -/
def idTable : Char → Char :=
  fun c => c

/-! ## Package `path/filepath`: `Base`, `Dir`, `IsAbs` -/

/-- Go's `filepath.Base`: the last element of `path`, after trailing separators are stripped;
"." for the empty path and "/" for a path of separators only. -/
def Base (path : String) : String :=
  if path = "" then "."
  else
    -- strip trailing slashes (the path is read from its end)
    let stripped := path.data.reverse.dropWhile (· = '/')
    -- find the last element
    let last := stripped.takeWhile (· ≠ '/')
    -- if empty now, it had only slashes
    if last = [] then "/" else ⟨last.reverse⟩

/-- Go's `filepath.Dir`: all but the last element of `path`, cleaned. -/
def Dir (path : String) : String :=
  Clean ⟨(path.data.reverse.dropWhile (· ≠ '/')).reverse⟩

/-- Go's `filepath.IsAbs` on Unix: the path begins with the separator. -/
def IsAbs (path : String) : Bool :=
  HasPrefix path "/"

/-! ## `utils.go`: the temporary path of `ReencodeForTelegramIOS` -/

/-- The temporary output path computed by `ReencodeForTelegramIOS`; `none` stands for the
run-time panic of the slice expression `base[:len(base)-len(ext)]` when the bound is negative.
Lengths and the slice bound are counted in bytes, as in Go. -/
def tempPathOf (path : String) : Option String :=
  let dir := Dir path
  let base := Base path
  let ext := Ext path
  if ext.utf8ByteSize ≤ base.utf8ByteSize then
    let name := base.extract 0 ⟨base.utf8ByteSize - ext.utf8ByteSize⟩
    some (Join dir (name ++ "_temp" ++ ext))
  else none

/-! ## `options.go`: setters used by the chat integration -/

/-- Only set base directory for the grabber. -/
def Grabber.WithBaseDir (g : Grabber) (baseDir : String) : Grabber :=
  { options := { g.options with BaseDir := baseDir } }

/-- WithRecodeVideo sets the video recoding format. -/
def Grabber.WithRecodeVideo (g : Grabber) (format : String) : Grabber :=
  { options := { g.options with RecodeVideo := format } }

/-! ## `examples/telegram/main.go`: the download of `sendMediaMessage` and its cleanup -/

/-- The constant `DOWNLOAD_DIR` of the chat integration. -/
def DOWNLOAD_DIR : String := "media/"

/-- The grabber the chat integration is initialised with. -/
def mediaGrabber : Grabber :=
  (New.WithBaseDir DOWNLOAD_DIR).WithRecodeVideo "mp4"

/-- The destination name `sendMediaMessage` builds for a request:
`fmt.Sprintf("chat%d_msg%d_ts%d", chatID, messageID, date)`. -/
def requestName (chatID messageID date : Int) : String :=
  "chat" ++ toString chatID ++ "_msg" ++ toString messageID ++ "_ts" ++ toString date

/-- The argument `sendMediaMessage` passes to its deferred cleanup function, which hands it to
`os.RemoveAll`: the deferred function is called with `name`. -/
def sendMediaMessageRemovePath (chatID messageID date : Int) : String :=
  let name := requestName chatID messageID date
  name

/-- The directory `Download` creates for the request of `sendMediaMessage`: the `outputPath`
of `Download`, handed to `os.MkdirAll`. -/
def sendMediaMessageDownloadDir (chatID messageID date : Int) : String :=
  Join mediaGrabber.options.BaseDir (requestName chatID messageID date)

/-- An environment in which the directory is created and the call `client.Run` returns the
given pair of result and error. -/
def runEnv (ret : RunReturn) : Env :=
  { mkdirAll := fun _ => none
    run := fun _ => ret
    readDir := fun _ => Except.ok [] }

/-! ## The shape of cleaned paths -/

/-- The output buffer of `filepath.Clean`, in reverse, that holds the path elements `es` (the
last element first): the elements joined by separators, after the root separator when
`rooted`. -/
def rbuf (rooted : Bool) : List (List Char) → List Char
  | [] => if rooted then ['/'] else []
  | e :: es =>
    e.reverse ++ (if es = [] then (if rooted then ['/'] else []) else '/' :: rbuf rooted es)

/-- A path element that `filepath.Clean` keeps: not empty, without separator, and not ".". -/
def goodElem (e : List Char) : Prop :=
  e ≠ [] ∧ '/' ∉ e ∧ e ≠ ['.']

/-- The path elements `fs`, each followed by a separator. -/
def withSlashes : List (List Char) → List Char
  | [] => []
  | e :: fs => e ++ '/' :: withSlashes fs

/-- The path `C` is in the form `filepath.Clean` produces: `k` leading ".." elements followed
by the kept elements `top` (held last first), after the root separator when `rooted`, and "."
when there is no element and no root. -/
def IsCleaned (rooted : Bool) (top : List (List Char)) (k : Nat) (C : String) : Prop :=
  (∀ e ∈ top, goodElem e ∧ e ≠ ['.', '.']) ∧ (rooted = true → k = 0) ∧
  C.data =
    if top ++ List.replicate k ['.', '.'] = [] ∧ rooted = false then ['.']
    else (rbuf rooted (top ++ List.replicate k ['.', '.'])).reverse

/-! ## `utils.go`: `ReencodeForTelegramIOS` -/

/-- A file system, as far as `ReencodeForTelegramIOS` is concerned: the content of the file at
each path, if there is one. Two paths name the same file only when they are the same
string. -/
def FileSystem : Type := String → Option String

/-- The outcomes of the calls `ReencodeForTelegramIOS` makes to the outside world: the error
of `exec.LookPath`, if any; the error of the ffmpeg run, if any; the file found at the
temporary path after the run (ffmpeg writes no other path); the error of `os.Rename`, if any,
other than a missing source; the error of the deferred `os.Remove`, if any, other than a
missing file. -/
structure ReencodeEnv where
  lookPath : Option String
  run : Option String
  output : Option String
  rename : Option String
  remove : Option String

/-- The effect of the deferred `os.Remove` on the file system; its error is only logged. With
the error `err` the call changes nothing; otherwise there is no file at `path` afterwards
(when there was none before, the call fails as well, and the file system is the same). -/
def osRemove (err : Option String) (fs : FileSystem) (path : String) : FileSystem :=
  match err with
  | some _ => fs
  | none => fun q => if q = path then none else fs q

/-- The call `os.Rename`: it fails when there is no file at `oldpath`, or with the error
`err`; otherwise the file is moved to `newpath`. -/
def osRename (err : Option String) (fs : FileSystem) (oldpath newpath : String) :
    Except String FileSystem :=
  match fs oldpath with
  | none =>
    Except.error ("rename " ++ oldpath ++ " " ++ newpath ++ ": no such file or directory")
  | some content =>
    match err with
    | some e => Except.error e
    | none =>
      Except.ok (fun q => if q = newpath then some content else if q = oldpath then none
        else fs q)

/-- ReencodeForTelegramIOS re-encodes the video at `path` in place. The result is `none` when
the computation of the temporary path panics, and otherwise the file system when the call
returns (the deferred removal of the temporary file included) and the returned error, if
any. -/
def ReencodeForTelegramIOS (env : ReencodeEnv) (fs : FileSystem) (path : String) :
    Option (FileSystem × Option String) :=
  -- ensure ffmpeg is installed
  match env.lookPath with
  | some err => some (fs, some ("ffmpeg not found in PATH: " ++ err))
  | none =>
    -- create a temporary output file
    match tempPathOf path with
    | none => none
    | some tempPath =>
      -- run the command
      let fs1 : FileSystem := fun q => if q = tempPath then env.output else fs q
      match env.run with
      | some err =>
        some (osRemove env.remove fs1 tempPath, some ("ffmpeg re-encode failed: " ++ err))
      | none =>
        -- replace original file with re-encoded version
        match osRename env.rename fs1 tempPath path with
        | Except.error err =>
          some (osRemove env.remove fs1 tempPath,
            some ("failed to replace original file: " ++ err))
        | Except.ok fs2 => some (osRemove env.remove fs2 tempPath, none)

/-! ## Lemmas on the string functions -/

theorem Contains_iff (s substr : String) : Contains s substr = true ↔ substr.data <:+: s.data := by
  simp [Contains]

theorem HasPrefix_iff (s pre : String) : HasPrefix s pre = true ↔ pre.data <+: s.data := by
  simp [HasPrefix]

theorem HasSuffix_iff (s suf : String) : HasSuffix s suf = true ↔ suf.data <:+ s.data := by
  simp [HasSuffix]

/-- Lowercasing maps an occurrence of `substr` to an occurrence of its lowercase form. -/
theorem Contains_ToLower (caseTable : Char → Char) (s substr : String)
    (h : Contains s substr = true) :
    Contains (ToLower caseTable s) (ToLower caseTable substr) = true := by
  rw [Contains_iff] at h ⊢
  obtain ⟨a, b, hab⟩ := h
  refine ⟨a.map (unicodeToLower caseTable), b.map (unicodeToLower caseTable), ?_⟩
  simp only [ToLower, ← hab, List.map_append]

/-! ## Platform identification -/

/-- C1: every URL whose hostname contains "tiktok.com" is identified as Tiktok, whatever its
path (and whatever else the hostname holds, such as a subdomain). -/
theorem identify_tiktok (caseTable : Char → Char) (urlParse : String → Option URL)
    (webUrl : String) (u : URL) (hparse : urlParse webUrl = some u)
    (hhost : Contains u.Hostname "tiktok.com" = true) :
    IdentifyPlatform caseTable urlParse webUrl = Platform.Tiktok := by
  have h := Contains_ToLower caseTable _ _ hhost
  have hl : ToLower caseTable "tiktok.com" = "tiktok.com" := rfl
  rw [hl] at h
  simp [IdentifyPlatform, hparse, h]

theorem identify_tiktok_witness :
    Contains (URL.mk "vm.tiktok.com" "/abcd1234").Hostname "tiktok.com" = true ∧
    IdentifyPlatform idTable (parsesTo ⟨"vm.tiktok.com", "/abcd1234"⟩)
      "https://vm.tiktok.com/abcd1234" = Platform.Tiktok :=
  ⟨by decide, identify_tiktok idTable (parsesTo ⟨"vm.tiktok.com", "/abcd1234"⟩)
    "https://vm.tiktok.com/abcd1234" ⟨"vm.tiktok.com", "/abcd1234"⟩ rfl (by decide)⟩

/-- C2, as stated, fails: a hostname can contain "instagram.com" and "tiktok.com" at once, and
then a "/reel/" path is identified as Tiktok; and the path is matched after lowercasing, so
"/REEL/..." on Instagram is identified as InstagramReels. -/
theorem identify_instagram_not_iff :
    (Contains "instagram.com.tiktok.com" "instagram.com" = true ∧
      HasPrefix "/reel/ABC123/" "/reel/" = true ∧
      IdentifyPlatform idTable (parsesTo ⟨"instagram.com.tiktok.com", "/reel/ABC123/"⟩)
        "https://instagram.com.tiktok.com/reel/ABC123/" = Platform.Tiktok) ∧
    (Contains "www.instagram.com" "instagram.com" = true ∧
      HasPrefix "/REEL/ABC123/" "/reel/" = false ∧
      IdentifyPlatform idTable (parsesTo ⟨"www.instagram.com", "/REEL/ABC123/"⟩)
        "https://www.instagram.com/REEL/ABC123/" = Platform.InstagramReels) := by
  decide

/-- C2, amended: for a URL whose hostname contains "instagram.com" and whose lowercased
hostname does not contain "tiktok.com", the result is InstagramReels if and only if the
lowercased path starts with "/reel/"; and when moreover the lowercased hostname contains none
of "twitter.com", "x.com", "youtube.com", "youtu.be", the result is Unknown otherwise. -/
theorem identify_instagram (caseTable : Char → Char) (urlParse : String → Option URL)
    (webUrl : String) (u : URL) (hparse : urlParse webUrl = some u)
    (hhost : Contains u.Hostname "instagram.com" = true)
    (htik : Contains (ToLower caseTable u.Hostname) "tiktok.com" = false) :
    (IdentifyPlatform caseTable urlParse webUrl = Platform.InstagramReels ↔
      HasPrefix (ToLower caseTable u.Path) "/reel/" = true) ∧
    (Contains (ToLower caseTable u.Hostname) "twitter.com" = false →
      Contains (ToLower caseTable u.Hostname) "x.com" = false →
      Contains (ToLower caseTable u.Hostname) "youtube.com" = false →
      Contains (ToLower caseTable u.Hostname) "youtu.be" = false →
      HasPrefix (ToLower caseTable u.Path) "/reel/" = false →
      IdentifyPlatform caseTable urlParse webUrl = Platform.Unknown) := by
  have h := Contains_ToLower caseTable _ _ hhost
  have hl : ToLower caseTable "instagram.com" = "instagram.com" := rfl
  rw [hl] at h
  constructor
  · simp only [IdentifyPlatform, hparse, htik, h]
    generalize HasPrefix (ToLower caseTable u.Path) "/reel/" = p
    generalize Contains (ToLower caseTable u.Hostname) "twitter.com" = b3
    generalize Contains (ToLower caseTable u.Hostname) "x.com" = b4
    generalize Contains (ToLower caseTable u.Hostname) "youtube.com" = b5
    generalize Contains (ToLower caseTable u.Hostname) "youtu.be" = b6
    revert p b3 b4 b5 b6
    decide
  · intro h1 h2 h3 h4 h5
    simp [IdentifyPlatform, hparse, htik, h, h1, h2, h3, h4, h5]

theorem identify_instagram_witness :
    (IdentifyPlatform idTable (parsesTo ⟨"www.instagram.com", "/p/ABC123/"⟩)
        "https://www.instagram.com/p/ABC123/" = Platform.InstagramReels ↔
      HasPrefix (ToLower idTable "/p/ABC123/") "/reel/" = true) ∧
    IdentifyPlatform idTable (parsesTo ⟨"www.instagram.com", "/p/ABC123/"⟩)
      "https://www.instagram.com/p/ABC123/" = Platform.Unknown :=
  ⟨(identify_instagram idTable (parsesTo ⟨"www.instagram.com", "/p/ABC123/"⟩)
      "https://www.instagram.com/p/ABC123/" ⟨"www.instagram.com", "/p/ABC123/"⟩ rfl
      (by decide) (by decide)).1,
    (identify_instagram idTable (parsesTo ⟨"www.instagram.com", "/p/ABC123/"⟩)
      "https://www.instagram.com/p/ABC123/" ⟨"www.instagram.com", "/p/ABC123/"⟩ rfl
      (by decide) (by decide)).2 (by decide) (by decide) (by decide) (by decide) (by decide)⟩

/-- C3: on every input that parses, IdentifyPlatform is the first-match-wins evaluation of the
four rules of the specification, in their priority order, on the lowercased hostname and the
lowercased path; and the result is Unknown exactly when no rule matches. -/
theorem identify_eq_firstMatch (caseTable : Char → Char) (urlParse : String → Option URL)
    (webUrl : String) (u : URL) (hparse : urlParse webUrl = some u) :
    IdentifyPlatform caseTable urlParse webUrl =
      firstMatch specRules (ToLower caseTable u.Hostname) (ToLower caseTable u.Path) ∧
    (IdentifyPlatform caseTable urlParse webUrl = Platform.Unknown ↔
      ∀ r ∈ specRules,
        r.cond (ToLower caseTable u.Hostname) (ToLower caseTable u.Path) = false) := by
  constructor
  · simp only [IdentifyPlatform, hparse, firstMatch, specRules]
  · simp only [IdentifyPlatform, hparse, specRules, List.mem_cons, List.mem_singleton,
      forall_eq_or_imp, forall_eq, List.not_mem_nil, false_implies, implies_true, and_true]
    generalize HasPrefix (ToLower caseTable u.Path) "/reel/" = p
    generalize Contains (ToLower caseTable u.Hostname) "tiktok.com" = b1
    generalize Contains (ToLower caseTable u.Hostname) "instagram.com" = b2
    generalize Contains (ToLower caseTable u.Hostname) "twitter.com" = b3
    generalize Contains (ToLower caseTable u.Hostname) "x.com" = b4
    generalize Contains (ToLower caseTable u.Hostname) "youtube.com" = b5
    generalize Contains (ToLower caseTable u.Hostname) "youtu.be" = b6
    revert p b1 b2 b3 b4 b5 b6
    decide

theorem identify_eq_firstMatch_witness :
    IdentifyPlatform idTable (parsesTo ⟨"x.com", "/user/status/1234567890"⟩)
        "https://x.com/user/status/1234567890" =
      firstMatch specRules (ToLower idTable "x.com") (ToLower idTable "/user/status/1234567890") ∧
    (IdentifyPlatform idTable (parsesTo ⟨"x.com", "/user/status/1234567890"⟩)
        "https://x.com/user/status/1234567890" = Platform.Unknown ↔
      ∀ r ∈ specRules,
        r.cond (ToLower idTable "x.com") (ToLower idTable "/user/status/1234567890") = false) :=
  identify_eq_firstMatch idTable (parsesTo ⟨"x.com", "/user/status/1234567890"⟩)
    "https://x.com/user/status/1234567890" ⟨"x.com", "/user/status/1234567890"⟩ rfl

/-- C4: IdentifyPlatform is a total function into the five platforms; it returns Unknown
whenever parsing fails; and it returns Unknown on "not-a-url", which the parser either rejects
or reads as a relative reference with an empty hostname. -/
theorem identify_total (caseTable : Char → Char) (urlParse : String → Option URL) :
    (∀ webUrl : String, IdentifyPlatform caseTable urlParse webUrl ∈
      [Platform.Tiktok, Platform.InstagramReels, Platform.Twitter, Platform.YouTube,
        Platform.Unknown]) ∧
    (∀ webUrl : String, urlParse webUrl = none →
      IdentifyPlatform caseTable urlParse webUrl = Platform.Unknown) ∧
    ((∀ u : URL, urlParse "not-a-url" = some u → u.Hostname = "") →
      IdentifyPlatform caseTable urlParse "not-a-url" = Platform.Unknown) := by
  refine ⟨fun webUrl => ?_, fun webUrl h => ?_, fun h => ?_⟩
  · cases IdentifyPlatform caseTable urlParse webUrl <;> simp
  · simp [IdentifyPlatform, h]
  · cases hp : urlParse "not-a-url" with
    | none => simp [IdentifyPlatform, hp]
    | some u =>
      have hu := h u hp
      have he : ToLower caseTable "" = "" := rfl
      have c1 : Contains "" "tiktok.com" = false := by decide
      have c2 : Contains "" "instagram.com" = false := by decide
      have c3 : Contains "" "twitter.com" = false := by decide
      have c4 : Contains "" "x.com" = false := by decide
      have c5 : Contains "" "youtube.com" = false := by decide
      have c6 : Contains "" "youtu.be" = false := by decide
      simp [IdentifyPlatform, hp, hu, he, c1, c2, c3, c4, c5, c6]

theorem identify_total_witness :
    (∀ webUrl : String, IdentifyPlatform idTable (parsesTo ⟨"", "not-a-url"⟩) webUrl ∈
      [Platform.Tiktok, Platform.InstagramReels, Platform.Twitter, Platform.YouTube,
        Platform.Unknown]) ∧
    (∀ webUrl : String, parsesTo ⟨"", "not-a-url"⟩ webUrl = none →
      IdentifyPlatform idTable (parsesTo ⟨"", "not-a-url"⟩) webUrl = Platform.Unknown) ∧
    IdentifyPlatform idTable (parsesTo ⟨"", "not-a-url"⟩) "not-a-url" = Platform.Unknown :=
  ⟨(identify_total idTable (parsesTo ⟨"", "not-a-url"⟩)).1,
    (identify_total idTable (parsesTo ⟨"", "not-a-url"⟩)).2.1,
    (identify_total idTable (parsesTo ⟨"", "not-a-url"⟩)).2.2 (by
      intro u hu
      simp only [parsesTo, Option.some.injEq] at hu
      rw [← hu])⟩


/-! ## File type classification -/

/-- C5, as stated, fails: findFileType compares its argument exactly, so the upper-case
extension ".MP4" is classified None, not Video. -/
theorem findFileType_upper_mp4 : findFileType ".MP4" = MediaType.None ∧
    findFileType ".MP4" ≠ MediaType.Video := by
  decide

/-- C5, amended: the classification Download applies, findFileType of the lowercased
extension, is case-insensitive: it is Video for every string whose lowercase form is one of
.mp4, .mkv, .webm, .mov, in particular for .mp4, .MP4, .mkv, .webm and .mov. -/
theorem findFileType_ToLower_video (caseTable : Char → Char) :
    (∀ e : String, ToLower caseTable e ∈ [".mp4", ".mkv", ".webm", ".mov"] →
      findFileType (ToLower caseTable e) = MediaType.Video) ∧
    (∀ e ∈ [".mp4", ".MP4", ".mkv", ".webm", ".mov"],
      findFileType (ToLower caseTable e) = MediaType.Video) := by
  constructor
  · intro e he
    simp only [List.mem_cons, List.mem_singleton, List.not_mem_nil, or_false] at he
    rcases he with h | h | h | h <;> rw [h] <;> decide
  · intro e he
    simp only [List.mem_cons, List.mem_singleton, List.not_mem_nil, or_false] at he
    rcases he with h | h | h | h | h <;> subst h
    · have : ToLower caseTable ".mp4" = ".mp4" := rfl
      rw [this]; decide
    · have : ToLower caseTable ".MP4" = ".mp4" := rfl
      rw [this]; decide
    · have : ToLower caseTable ".mkv" = ".mkv" := rfl
      rw [this]; decide
    · have : ToLower caseTable ".webm" = ".webm" := rfl
      rw [this]; decide
    · have : ToLower caseTable ".mov" = ".mov" := rfl
      rw [this]; decide

theorem findFileType_ToLower_video_witness :
    ToLower idTable ".MkV" ∈ [".mp4", ".mkv", ".webm", ".mov"] ∧
    findFileType (ToLower idTable ".MkV") = MediaType.Video ∧
    findFileType (ToLower idTable ".MP4") = MediaType.Video :=
  ⟨by decide, (findFileType_ToLower_video idTable).1 ".MkV" (by decide),
    (findFileType_ToLower_video idTable).2 ".MP4" (by decide)⟩

/-- C6: findFileType is a total function that returns Photo for .jpg, .jpeg, .png and .webp,
Animation for .gif, and None for every string that is none of these five nor one of the four
video extensions, such as .txt, .json and the empty string. -/
theorem findFileType_table :
    (∀ e ∈ [".jpg", ".jpeg", ".png", ".webp"], findFileType e = MediaType.Photo) ∧
    findFileType ".gif" = MediaType.Animation ∧
    (∀ e : String,
      e ∉ [".mp4", ".mkv", ".webm", ".mov", ".jpg", ".jpeg", ".png", ".webp", ".gif"] →
      findFileType e = MediaType.None) ∧
    (∀ e ∈ [".txt", ".json", ""], findFileType e = MediaType.None) ∧
    (∀ e : String, findFileType e ∈
      [MediaType.Photo, MediaType.Video, MediaType.Animation, MediaType.None]) := by
  refine ⟨by decide, by decide, ?_, by decide, ?_⟩
  · intro e he
    simp only [List.mem_cons, List.mem_singleton, List.not_mem_nil, or_false, not_or] at he
    unfold findFileType
    split <;> simp_all
  · intro e
    cases findFileType e <;> simp

theorem findFileType_table_witness :
    ".mp3" ∉ [".mp4", ".mkv", ".webm", ".mov", ".jpg", ".jpeg", ".png", ".webp", ".gif"] ∧
    findFileType ".mp3" = MediaType.None ∧ findFileType ".webp" = MediaType.Photo :=
  ⟨by decide, findFileType_table.2.2.1 ".mp3" (by decide),
    findFileType_table.1 ".webp" (by decide)⟩

/-! ## The argument list -/

/-- The argument list in closed form: each option contributes its block or nothing. -/
theorem buildArgs_blocks (g : Grabber) (outputPath mediaUrl : String) :
    g.buildArgs outputPath mediaUrl =
      ["-o", Join outputPath g.options.OutputTemplate] ++
      (if g.options.RestrictFilenames = true then ["--restrict-filenames"] else []) ++
      (if g.options.NoPlaylist = true then ["--no-playlist"] else []) ++
      (if g.options.MaxFileSize ≠ "" then ["--max-filesize", g.options.MaxFileSize] else []) ++
      (if g.options.WriteThumbnail = true then ["--write-thumbnail"] else []) ++
      (if g.options.Format ≠ "" then ["--format", g.options.Format] else []) ++
      (if g.options.RecodeVideo ≠ "" then ["--recode-video", g.options.RecodeVideo] else []) ++
      [mediaUrl] := by
  unfold Grabber.buildArgs
  split_ifs <;> simp

/-- C7, as stated, fails: with RecodeVideo empty the list still holds the element
"--recode-video" when the URL is that string, and with a non-empty RecodeVideo the element then
occurs twice. -/
theorem buildArgs_recode_flag_from_url :
    (New.options.RecodeVideo = "" ∧
      "--recode-video" ∈ New.buildArgs "media/x" "--recode-video") ∧
    (({ options := { defaultOptions with RecodeVideo := "mp4" } } : Grabber).buildArgs
      "media/x" "--recode-video").count "--recode-video" = 2 := by
  refine ⟨⟨rfl, ?_⟩, ?_⟩
  · rw [buildArgs_blocks]; simp
  · have hj : Join "media/x" "media.%(ext)s" = "media/x/media.%(ext)s" := by
      simp [Join, Clean, cleanLoop]
    rw [buildArgs_blocks]
    simp only [defaultOptions, hj]
    decide

/-- C7, amended: when RecodeVideo is empty and none of the output template path, MaxFileSize,
Format and the URL is the string "--recode-video", the list does not contain "--recode-video";
when RecodeVideo is a non-empty value v, the list contains "--recode-video" immediately
followed by v, and, when moreover neither v nor any of the four strings above is
"--recode-video", that element occurs exactly once. -/
theorem buildArgs_recode (g : Grabber) (outputPath mediaUrl : String) :
    (g.options.RecodeVideo = "" →
      Join outputPath g.options.OutputTemplate ≠ "--recode-video" →
      g.options.MaxFileSize ≠ "--recode-video" → g.options.Format ≠ "--recode-video" →
      mediaUrl ≠ "--recode-video" →
      "--recode-video" ∉ g.buildArgs outputPath mediaUrl) ∧
    (g.options.RecodeVideo ≠ "" →
      ["--recode-video", g.options.RecodeVideo] <:+: g.buildArgs outputPath mediaUrl) ∧
    (g.options.RecodeVideo ≠ "" → g.options.RecodeVideo ≠ "--recode-video" →
      Join outputPath g.options.OutputTemplate ≠ "--recode-video" →
      g.options.MaxFileSize ≠ "--recode-video" → g.options.Format ≠ "--recode-video" →
      mediaUrl ≠ "--recode-video" →
      (g.buildArgs outputPath mediaUrl).count "--recode-video" = 1) := by
  have e1 : ("--recode-video" == "-o") = false := by decide
  have e2 : ("--recode-video" == "--restrict-filenames") = false := by decide
  have e3 : ("--recode-video" == "--no-playlist") = false := by decide
  have e4 : ("--recode-video" == "--max-filesize") = false := by decide
  have e5 : ("--recode-video" == "--write-thumbnail") = false := by decide
  have e6 : ("--recode-video" == "--format") = false := by decide
  refine ⟨fun h0 h1 h2 h3 h4 => ?_, fun h0 => ?_, fun h0 hv h1 h2 h3 h4 => ?_⟩
  · rw [buildArgs_blocks]
    simp only [h0, ne_eq, not_true_eq_false, if_false, List.append_nil]
    have d1 : "--recode-video" ≠ "-o" := by decide
    have d2 : "--recode-video" ≠ "--restrict-filenames" := by decide
    have d3 : "--recode-video" ≠ "--no-playlist" := by decide
    have d4 : "--recode-video" ≠ "--max-filesize" := by decide
    have d5 : "--recode-video" ≠ "--write-thumbnail" := by decide
    have d6 : "--recode-video" ≠ "--format" := by decide
    split_ifs <;>
      simp [d1, d2, d3, d4, d5, d6, Ne.symm h1, Ne.symm h2, Ne.symm h3, Ne.symm h4]
  · rw [buildArgs_blocks, if_pos h0]
    exact ⟨_, [mediaUrl], rfl⟩
  · rw [buildArgs_blocks, if_pos h0]
    have b1 : ("--recode-video" == Join outputPath g.options.OutputTemplate) = false := by
      simpa using Ne.symm h1
    have b2 : ("--recode-video" == g.options.MaxFileSize) = false := by simpa using Ne.symm h2
    have b3 : ("--recode-video" == g.options.Format) = false := by simpa using Ne.symm h3
    have b4 : ("--recode-video" == mediaUrl) = false := by simpa using Ne.symm h4
    have b5 : ("--recode-video" == g.options.RecodeVideo) = false := by simpa using Ne.symm hv
    simp only [List.count_append]
    split_ifs <;>
      simp [List.count_cons, List.count_nil, e1, e2, e3, e4, e5, e6, b1, b2, b3, b4, b5, hv,
        h1, h2, h3, h4]

theorem buildArgs_recode_witness :
    ["--recode-video", "mp4"] <:+:
        ({ options := { defaultOptions with RecodeVideo := "mp4" } } : Grabber).buildArgs
          "media/x" "https://youtu.be/dQw4w9WgXcQ" ∧
    (({ options := { defaultOptions with RecodeVideo := "mp4" } } : Grabber).buildArgs
      "media/x" "https://youtu.be/dQw4w9WgXcQ").count "--recode-video" = 1 ∧
    "--recode-video" ∉ New.buildArgs "media/x" "https://youtu.be/dQw4w9WgXcQ" :=
  ⟨(buildArgs_recode ⟨{ defaultOptions with RecodeVideo := "mp4" }⟩ "media/x"
      "https://youtu.be/dQw4w9WgXcQ").2.1 (by decide),
    (buildArgs_recode ⟨{ defaultOptions with RecodeVideo := "mp4" }⟩ "media/x"
      "https://youtu.be/dQw4w9WgXcQ").2.2 (by decide) (by decide)
      (by simp [Join, Clean, cleanLoop, defaultOptions]) (by decide) (by decide) (by decide),
    (buildArgs_recode New "media/x" "https://youtu.be/dQw4w9WgXcQ").1 rfl
      (by simp [Join, Clean, cleanLoop, New, defaultOptions]) (by decide) (by decide)
      (by decide)⟩

/-- C8: buildArgs returns exactly "-o" and the joined output template path, then the block of
each option that is switched on, in the order RestrictFilenames, NoPlaylist, MaxFileSize,
WriteThumbnail, Format, RecodeVideo, then the URL as the last element; an option that is
switched off contributes no element. -/
theorem buildArgs_exact (g : Grabber) (outputPath mediaUrl : String) :
    g.buildArgs outputPath mediaUrl =
      ["-o", Join outputPath g.options.OutputTemplate] ++
      (if g.options.RestrictFilenames = true then ["--restrict-filenames"] else []) ++
      (if g.options.NoPlaylist = true then ["--no-playlist"] else []) ++
      (if g.options.MaxFileSize ≠ "" then ["--max-filesize", g.options.MaxFileSize] else []) ++
      (if g.options.WriteThumbnail = true then ["--write-thumbnail"] else []) ++
      (if g.options.Format ≠ "" then ["--format", g.options.Format] else []) ++
      (if g.options.RecodeVideo ≠ "" then ["--recode-video", g.options.RecodeVideo] else []) ++
      [mediaUrl] ∧
    (g.buildArgs outputPath mediaUrl).getLast? = some mediaUrl := by
  have h := buildArgs_blocks g outputPath mediaUrl
  refine ⟨h, ?_⟩
  rw [h]
  exact List.getLast?_concat _

/-! ## Lemmas on `filepath.Ext`, `filepath.Clean` and `filepath.Join` -/

/-- The scan for the extension does not look past a separator. -/
theorem extLoop_append (l tl : List Char) (hl : '/' ∉ l) (htl : tl = [] ∨ tl.head? = some '/') :
    ∀ acc : List Char, extLoop (l ++ tl) acc = extLoop l acc := by
  induction l with
  | nil =>
    intro acc
    rcases htl with h | h
    · subst h; rfl
    · cases tl with
      | nil => rfl
      | cons d t =>
        simp only [List.head?_cons, Option.some.injEq] at h
        subst h
        simp [extLoop]
  | cons c l ih =>
    intro acc
    simp only [List.mem_cons, not_or] at hl
    have h := ih hl.2 (c :: acc)
    simp only [List.cons_append, extLoop, List.append_eq, h]

/-- Backtracking keeps a suffix of the buffer, and never goes below `dotdot`. -/
theorem backtrack_suffix (dotdot : Nat) (rout : List Char) (h : dotdot < rout.length) :
    backtrack dotdot rout <:+ rout ∧ dotdot ≤ (backtrack dotdot rout).length := by
  induction rout with
  | nil => simp at h
  | cons c rest ih =>
    simp only [backtrack]
    split_ifs with hc
    · obtain ⟨h1, h2⟩ := ih hc.1
      exact ⟨h1.trans (List.suffix_cons c rest), h2⟩
    · refine ⟨List.suffix_cons c rest, ?_⟩
      simp only [List.length_cons] at h
      omega

theorem dropWhile_append_of_mem (q : Char → Bool) (l₁ l₂ : List Char)
    (h : ∃ a ∈ l₁, q a = false) :
    (l₁ ++ l₂).dropWhile q = l₁.dropWhile q ++ l₂ ∧
    (l₁ ++ l₂).takeWhile q = l₁.takeWhile q ∧ l₁.dropWhile q ≠ [] := by
  induction l₁ with
  | nil => simp at h
  | cons c l ih =>
    obtain ⟨a, ha, hq⟩ := h
    cases hc : q c with
    | false => simp [List.dropWhile, List.takeWhile, hc]
    | true =>
      have : ∃ a ∈ l, q a = false := by
        rcases List.mem_cons.1 ha with h | h
        · subst h; rw [hc] at hq; cases hq
        · exact ⟨a, h, hq⟩
      obtain ⟨h1, h2, h3⟩ := ih this
      simp [List.dropWhile, List.takeWhile, hc, h1, h2, h3]

/-- The last element of a path, when it is a valid name, is copied to the output as it is. -/
theorem cleanLoop_name (rooted : Bool) (n rout : List Char) (dotdot : Nat)
    (h0 : n ≠ []) (hs : '/' ∉ n) (h1 : n ≠ ['.']) (h2 : n ≠ ['.', '.']) :
    cleanLoop rooted n rout dotdot = n.reverse ++
      (if (rooted = true ∧ rout.length ≠ 1) ∨ (rooted = false ∧ rout.length ≠ 0) then '/' :: rout
        else rout) := by
  cases n with
  | nil => exact absurd rfl h0
  | cons c rest =>
    simp only [List.mem_cons, not_or] at hs
    have hc : c ≠ '/' := fun h => hs.1 h.symm
    have hhead : rest.head? ≠ some '/' := by
      intro h
      cases rest with
      | nil => simp at h
      | cons d t =>
        simp only [List.head?_cons, Option.some.injEq] at h
        exact hs.2 (h ▸ List.mem_cons_self _ _)
    have hdot : ¬(c = '.' ∧ (rest = [] ∨ rest.head? = some '/')) := by
      rintro ⟨hc1, h | h⟩
      · exact h1 (by rw [hc1, h])
      · exact hhead h
    have hdd : ¬(c = '.' ∧ rest.head? = some '.' ∧
        (rest.tail = [] ∨ rest.tail.head? = some '/')) := by
      rintro ⟨hc1, hr, h⟩
      cases rest with
      | nil => simp at hr
      | cons d t =>
        simp only [List.head?_cons, Option.some.injEq] at hr
        simp only [List.tail_cons] at h
        rcases h with h | h
        · exact h2 (by rw [hc1, hr, h])
        · cases t with
          | nil => simp at h
          | cons e t' =>
            simp only [List.head?_cons, Option.some.injEq] at h
            exact hs.2 (by rw [h]; simp)
    have hall : ∀ x ∈ rest, (decide (x ≠ '/')) = true := by
      intro x hx
      simp only [ne_eq, decide_not, Bool.not_eq_true', decide_eq_false_iff_not]
      intro hx'
      exact hs.2 (hx' ▸ hx)
    have hdrop : rest.dropWhile (fun x => decide (x ≠ '/')) = [] := by
      rw [List.dropWhile_eq_nil_iff]; exact hall
    have htake : rest.takeWhile (fun x => decide (x ≠ '/')) = rest := by
      rw [List.takeWhile_eq_self_iff]; exact hall
    rw [cleanLoop]
    simp only [hc, hdot, hdd, if_false, hdrop, htake]
    rw [cleanLoop]
    simp

theorem getLast?_tail_of_ne (c : Char) (p : List Char)
    (h : (c :: p) = [] ∨ (c :: p).getLast? = some '/') :
    (p = [] ∨ p.getLast? = some '/') ∧ (c ≠ '/' → p ≠ []) := by
  rcases h with h | h
  · cases h
  · cases p with
    | nil =>
      simp only [List.getLast?_singleton, Option.some.injEq] at h
      exact ⟨Or.inl rfl, fun hc => absurd h hc⟩
    | cons d t =>
      rw [List.getLast?_cons_cons] at h
      exact ⟨Or.inr h, fun _ => List.cons_ne_nil _ _⟩

/-- Cleaning a path that ends in a valid name: whatever precedes the name, up to and including
a separator, only changes the state in which the loop reaches the name. -/
theorem cleanLoop_before_name (rooted : Bool) (n : List Char) :
    ∀ (k : Nat) (p rout : List Char) (dotdot : Nat), p.length ≤ k →
      (p = [] ∨ p.getLast? = some '/') →
      (rooted = true → 1 ≤ dotdot ∧ rout.getLast? = some '/') →
      ∃ (rout1 : List Char) (dotdot1 : Nat),
        (rooted = true → 1 ≤ dotdot1 ∧ rout1.getLast? = some '/') ∧
        cleanLoop rooted (p ++ n) rout dotdot = cleanLoop rooted n rout1 dotdot1 := by
  intro k
  induction k with
  | zero =>
    intro p rout dotdot hk _ hinv
    have : p = [] := List.length_eq_zero.1 (Nat.le_zero.1 hk)
    subst this
    exact ⟨rout, dotdot, hinv, rfl⟩
  | succ k ih =>
    intro p rout dotdot hk hp hinv
    cases p with
    | nil => exact ⟨rout, dotdot, hinv, rfl⟩
    | cons c p1 =>
      have hk1 : p1.length ≤ k := by simp only [List.length_cons] at hk; omega
      obtain ⟨hp1, hp1ne⟩ := getLast?_tail_of_ne c p1 hp
      rw [List.cons_append, cleanLoop]
      by_cases c1 : c = '/'
      · rw [if_pos c1]
        exact ih p1 rout dotdot hk1 hp1 hinv
      rw [if_neg c1]
      have hne : p1 ≠ [] := hp1ne c1
      by_cases c2 : c = '.' ∧ (p1 ++ n = [] ∨ (p1 ++ n).head? = some '/')
      · rw [if_pos c2]
        exact ih p1 rout dotdot hk1 hp1 hinv
      rw [if_neg c2]
      by_cases c3 : c = '.' ∧ (p1 ++ n).head? = some '.' ∧
          ((p1 ++ n).tail = [] ∨ (p1 ++ n).tail.head? = some '/')
      · rw [if_pos c3]
        -- the prefix goes on after the two dots
        cases p1 with
        | nil => exact absurd rfl hne
        | cons d p2 =>
          have hd : d = '.' := by
            have := c3.2.1
            simpa using this
          have hk2 : p2.length ≤ k := by simp only [List.length_cons] at hk1; omega
          obtain ⟨hp2, hp2ne⟩ := getLast?_tail_of_ne d p2 hp1
          have hp2' : p2 ≠ [] := hp2ne (by rw [hd]; decide)
          simp only [List.cons_append, List.tail_cons]
          by_cases c4 : rout.length > dotdot
          · rw [if_pos c4]
            obtain ⟨hsuf, hlen⟩ := backtrack_suffix dotdot rout c4
            refine ih p2 (backtrack dotdot rout) dotdot hk2 hp2 (fun hr => ?_)
            obtain ⟨hd1, hlast⟩ := hinv hr
            refine ⟨hd1, ?_⟩
            obtain ⟨t, ht⟩ := hsuf
            have hbne : backtrack dotdot rout ≠ [] := by
              intro h0
              rw [h0] at hlen
              simp only [List.length_nil] at hlen
              omega
            rw [← ht, List.getLast?_append_of_ne_nil _ hbne] at hlast
            exact hlast
          · rw [if_neg c4]
            by_cases c5 : rooted = false
            · rw [if_pos c5]
              exact ih p2 _ _ hk2 hp2 (fun hr => by rw [c5] at hr; cases hr)
            · rw [if_neg c5]
              exact ih p2 rout dotdot hk2 hp2 hinv
      rw [if_neg c3]
      -- a real path element: the prefix holds a separator, where the copy stops
      have hmem : ∃ a ∈ p1, (fun x => decide (x ≠ '/')) a = false := by
        rcases hp1 with h | h
        · exact absurd h hne
        · refine ⟨'/', List.mem_of_mem_getLast? h, ?_⟩
          simp
      obtain ⟨hdrop, htake, hdne⟩ := dropWhile_append_of_mem (fun x => decide (x ≠ '/')) p1 n hmem
      simp only [hdrop, htake]
      have hsuf : p1.dropWhile (fun x => decide (x ≠ '/')) <:+ p1 := List.dropWhile_suffix _
      refine ih (p1.dropWhile (fun x => decide (x ≠ '/'))) _ dotdot
        (le_trans hsuf.length_le hk1) (Or.inr ?_) (fun hr => ?_)
      · obtain ⟨t, ht⟩ := hsuf
        rcases hp1 with h | h
        · exact absurd h hne
        · rw [← ht, List.getLast?_append_of_ne_nil _ hdne] at h
          exact h
      · obtain ⟨hd1, hlast⟩ := hinv hr
        refine ⟨hd1, ?_⟩
        have hrne : rout ≠ [] := by
          intro h0
          rw [h0] at hlast
          simp at hlast
        split_ifs
        · rw [List.getLast?_append_of_ne_nil _ (List.cons_ne_nil _ _), List.getLast?_cons_cons]
          cases rout with
          | nil => exact absurd rfl hrne
          | cons e t => rw [List.getLast?_cons_cons]; exact hlast
        · rw [List.getLast?_append_of_ne_nil _ (List.cons_ne_nil _ _)]
          cases rout with
          | nil => exact absurd rfl hrne
          | cons e t => rw [List.getLast?_cons_cons]; exact hlast

/-- The cleaned form of a path that ends in a valid name ends in that name, preceded by a
separator or by nothing. -/
theorem cleanLoop_ends_with_name (rooted : Bool) (p n rout : List Char) (dotdot : Nat)
    (hp : p = [] ∨ p.getLast? = some '/')
    (hinv : rooted = true → 1 ≤ dotdot ∧ rout.getLast? = some '/')
    (h0 : n ≠ []) (hs : '/' ∉ n) (h1 : n ≠ ['.']) (h2 : n ≠ ['.', '.']) :
    ∃ tl : List Char, (tl = [] ∨ tl.head? = some '/') ∧
      cleanLoop rooted (p ++ n) rout dotdot = n.reverse ++ tl := by
  obtain ⟨rout1, dotdot1, hinv1, heq⟩ :=
    cleanLoop_before_name rooted n p.length p rout dotdot le_rfl hp hinv
  rw [heq, cleanLoop_name rooted n rout1 dotdot1 h0 hs h1 h2]
  refine ⟨_, ?_, rfl⟩
  split_ifs with hc
  · exact Or.inr rfl
  · cases hr : rooted with
    | false =>
      left
      have : ¬ rout1.length ≠ 0 := fun h => hc (Or.inr ⟨hr, h⟩)
      exact List.length_eq_zero.1 (not_not.1 this)
    | true =>
      right
      have hlen : rout1.length = 1 := not_not.1 (fun h => hc (Or.inl ⟨hr, h⟩))
      obtain ⟨_, hlast⟩ := hinv1 hr
      match rout1, hlen, hlast with
      | [e], _, hlast =>
        simp only [List.getLast?_singleton, Option.some.injEq] at hlast
        simp [hlast]

/-- Joining a directory and a valid entry name does not change the extension: the extension
of the joined path is the extension of the name. -/
theorem Ext_Join (dir name : String) (hname : validName name) :
    Ext (Join dir name) = Ext name := by
  obtain ⟨hne, hs, hd, hdd⟩ := hname
  have h0 : name.data ≠ [] := fun h => hne (String.ext h)
  have h1 : name.data ≠ ['.'] := fun h => hd (String.ext h)
  have h2 : name.data ≠ ['.', '.'] := fun h => hdd (String.ext h)
  have hs' : '/' ∉ name.data.reverse := by simpa using hs
  have key : ∀ (path : String) (p : List Char), path.data = p ++ name.data →
      (p = [] ∨ p.getLast? = some '/') → Ext (Clean path) = Ext name := by
    intro path p hpath hp
    have hpne : path ≠ "" := by
      intro h
      rw [h] at hpath
      have : name.data = [] := by
        have h3 := congrArg List.length hpath
        simp only [String.data, List.length_nil, List.length_append] at h3
        exact List.length_eq_zero.1 (by omega)
      exact h0 this
    have fin : ∀ rout tl : List Char, (tl = [] ∨ tl.head? = some '/') →
        rout = name.data.reverse ++ tl →
        Ext (if rout.length = 0 then "." else ⟨rout.reverse⟩) = Ext name := by
      intro rout tl htl hr
      have hlen : rout.length ≠ 0 := by
        rw [hr, List.length_append, List.length_reverse]
        have := List.length_pos.2 h0
        omega
      rw [if_neg hlen]
      simp only [Ext, List.reverse_reverse, hr]
      rw [extLoop_append _ _ hs' htl]
    unfold Clean
    rw [if_neg hpne]
    simp only []
    by_cases hroot : path.data.head? = some '/'
    · simp only [hroot, decide_True, if_true]
      -- rooted: the leading separator belongs to the prefix
      cases p with
      | nil =>
        rw [List.nil_append] at hpath
        rw [hpath] at hroot
        cases hn : name.data with
        | nil => exact absurd hn h0
        | cons e t =>
          rw [hn] at hroot
          simp only [List.head?_cons, Option.some.injEq] at hroot
          exact absurd (by rw [hn, hroot]; simp) hs
      | cons c p1 =>
        have htail : path.data.tail = p1 ++ name.data := by rw [hpath]; rfl
        obtain ⟨hp1, _⟩ := getLast?_tail_of_ne c p1 hp
        obtain ⟨tl, htl, heq⟩ := cleanLoop_ends_with_name true p1 name.data ['/'] 1 hp1
          (fun _ => ⟨le_rfl, rfl⟩) h0 hs h1 h2
        rw [htail]
        exact fin _ tl htl heq
    · simp only [hroot, decide_False, if_false, Bool.false_eq_true]
      obtain ⟨tl, htl, heq⟩ := cleanLoop_ends_with_name false p name.data [] 0 hp
        (fun h => by cases h) h0 hs h1 h2
      rw [hpath]
      exact fin _ tl htl heq
  unfold Join
  by_cases ha : dir ≠ ""
  · rw [if_pos ha]
    exact key _ (dir.data ++ ['/']) (by simp [String.data_append]) (Or.inr (by simp))
  · rw [if_neg ha, if_pos hne]
    exact key name [] rfl (Or.inl rfl)

/-! ## `Download` -/

/-- The loop over the directory listing, in closed form: the entries that are kept, in listing
order, each turned into its result. -/
theorem foldl_scanFile (caseTable : Char → Char) (outputPath : String) (files : List DirEntry) :
    ∀ acc : List FileResult,
      files.foldl (scanFile caseTable outputPath) acc = acc ++
        (files.filter (fun f => !f.IsDir && !HasSuffix f.Name ".part" &&
            decide (findFileType (ToLower caseTable (Ext (Join outputPath f.Name))) ≠
              MediaType.None))).map
          (fun f =>
            { Name := f.Name
              Path := Join outputPath f.Name
              Ext := ToLower caseTable (Ext (Join outputPath f.Name))
              MediaType := findFileType (ToLower caseTable (Ext (Join outputPath f.Name))) }) := by
  induction files with
  | nil => intro acc; simp
  | cons f rest ih =>
    intro acc
    rw [List.foldl_cons, ih]
    unfold scanFile
    cases hd : f.IsDir <;> cases hp : HasSuffix f.Name ".part" <;>
      by_cases hm : findFileType (ToLower caseTable (Ext (Join outputPath f.Name))) =
        MediaType.None <;>
      simp [List.filter_cons, hd, hp, hm]

/-- The same closed form for a listing of valid names, with the extension taken from the entry
name. -/
theorem foldl_scanFile_valid (caseTable : Char → Char) (outputPath : String)
    (files : List DirEntry) (hvalid : ∀ f ∈ files, validName f.Name) :
    files.foldl (scanFile caseTable outputPath) [] =
      (files.filter (fun f => !f.IsDir && !HasSuffix f.Name ".part" &&
          decide (findFileType (ToLower caseTable (Ext f.Name)) ≠ MediaType.None))).map
        (fun f =>
          { Name := f.Name
            Path := Join outputPath f.Name
            Ext := ToLower caseTable (Ext f.Name)
            MediaType := findFileType (ToLower caseTable (Ext f.Name)) }) := by
  rw [foldl_scanFile, List.nil_append]
  have hf : files.filter (fun f => !f.IsDir && !HasSuffix f.Name ".part" &&
        decide (findFileType (ToLower caseTable (Ext (Join outputPath f.Name))) ≠
          MediaType.None)) =
      files.filter (fun f => !f.IsDir && !HasSuffix f.Name ".part" &&
        decide (findFileType (ToLower caseTable (Ext f.Name)) ≠ MediaType.None)) := by
    apply List.filter_congr
    intro f hf
    rw [Ext_Join outputPath f.Name (hvalid f hf)]
  rw [hf]
  apply List.map_congr_left
  intro f hf
  rw [Ext_Join outputPath f.Name (hvalid f (List.mem_of_mem_filter hf))]

/-- C9: when the tool exits with status 0 and every entry of the listing is a directory, has a
name ending in ".part", or has a lowercased extension classified None (the empty listing
included), Download returns an error, namely "could not find primary downloaded media file"
when the directory could be created; and every successful return of Download carries a
non-empty result list. -/
theorem Download_no_media (caseTable : Char → Char) (env : Env) (g : Grabber)
    (mediaUrl name : String) :
    (∀ (result : RunResult) (files : List DirEntry),
      env.run (g.buildArgs (Join g.options.BaseDir name) mediaUrl) =
        { result := result, err := none } →
      result.ExitCode = 0 →
      env.readDir (Join g.options.BaseDir name) = Except.ok files →
      (∀ f ∈ files, validName f.Name) →
      (∀ f ∈ files, f.IsDir = true ∨ HasSuffix f.Name ".part" = true ∨
        findFileType (ToLower caseTable (Ext f.Name)) = MediaType.None) →
      (∃ msg, g.Download caseTable env mediaUrl name = Except.error msg) ∧
      (env.mkdirAll (Join g.options.BaseDir name) = none →
        g.Download caseTable env mediaUrl name = Except.error
          ("could not find primary downloaded media file from yt-dlp for '" ++ mediaUrl ++
            "'"))) ∧
    (∀ rs : List FileResult, g.Download caseTable env mediaUrl name = Except.ok rs → rs ≠ []) := by
  constructor
  · intro result files hrun hexit hread hvalid hskip
    have hnil : files.foldl (scanFile caseTable (Join g.options.BaseDir name)) [] = [] := by
      rw [foldl_scanFile_valid _ _ _ hvalid, List.map_eq_nil_iff, List.filter_eq_nil_iff]
      intro f hf
      rcases hskip f hf with h | h | h <;> simp [h]
    have hmain : env.mkdirAll (Join g.options.BaseDir name) = none →
        g.Download caseTable env mediaUrl name = Except.error
          ("could not find primary downloaded media file from yt-dlp for '" ++ mediaUrl ++
            "'") := by
      intro hmk
      simp [Grabber.Download, hmk, hrun, hexit, hread, hnil]
    refine ⟨?_, hmain⟩
    cases hmk : env.mkdirAll (Join g.options.BaseDir name) with
    | none => exact ⟨_, hmain hmk⟩
    | some err =>
      exact ⟨"could not create download directory '" ++ Join g.options.BaseDir name ++ "': " ++
        err, by simp [Grabber.Download, hmk]⟩
  · intro rs hok hnil
    subst hnil
    unfold Grabber.Download at hok
    simp only [] at hok
    split at hok
    · cases hok
    · split at hok
      · cases hok
      · split_ifs at hok
        split at hok
        · cases hok
        · split_ifs at hok with hlen
          simp only [Except.ok.injEq] at hok
          rw [hok] at hlen
          exact hlen rfl

theorem Download_no_media_witness :
    (∀ f ∈ [DirEntry.mk "media.mp4.part" false, DirEntry.mk "media.info.json" false,
        DirEntry.mk "fragments" true], validName f.Name) ∧
    (∀ f ∈ [DirEntry.mk "media.mp4.part" false, DirEntry.mk "media.info.json" false,
        DirEntry.mk "fragments" true],
      f.IsDir = true ∨ HasSuffix f.Name ".part" = true ∨
        findFileType (ToLower idTable (Ext f.Name)) = MediaType.None) ∧
    New.Download idTable
        (successEnv [⟨"media.mp4.part", false⟩, ⟨"media.info.json", false⟩, ⟨"fragments", true⟩])
        "https://youtu.be/dQw4w9WgXcQ" "1_2_3" =
      Except.error ("could not find primary downloaded media file from yt-dlp for '" ++
        "https://youtu.be/dQw4w9WgXcQ" ++ "'") :=
  ⟨by decide, by decide,
    ((Download_no_media idTable
        (successEnv [⟨"media.mp4.part", false⟩, ⟨"media.info.json", false⟩, ⟨"fragments", true⟩])
        New "https://youtu.be/dQw4w9WgXcQ" "1_2_3").1 ⟨0, ""⟩ _ rfl rfl rfl (by decide)
      (by decide)).2 rfl⟩

/-- C10: on a successful Download over a listing of valid entry names, the result list is the
listing, in listing order, restricted to the entries that are not directories, whose name does
not end in ".part" and whose lowercased extension is not classified None; each result has the
entry name as Name, the joined path as Path, the lowercased extension of the name as Ext and
its classification as MediaType. For the listing media.mp4, media.webp, media.mp4.part the
results are exactly a Video (media.mp4) and a Photo (media.webp). -/
theorem Download_results (caseTable : Char → Char) (env : Env) (g : Grabber)
    (mediaUrl name : String) :
    (∀ (files : List DirEntry) (rs : List FileResult),
      env.readDir (Join g.options.BaseDir name) = Except.ok files →
      (∀ f ∈ files, validName f.Name) →
      g.Download caseTable env mediaUrl name = Except.ok rs →
      rs = (files.filter (fun f => !f.IsDir && !HasSuffix f.Name ".part" &&
          decide (findFileType (ToLower caseTable (Ext f.Name)) ≠ MediaType.None))).map
        (fun f =>
          { Name := f.Name
            Path := Join (Join g.options.BaseDir name) f.Name
            Ext := ToLower caseTable (Ext f.Name)
            MediaType := findFileType (ToLower caseTable (Ext f.Name)) })) ∧
    (∀ result : RunResult,
      env.mkdirAll (Join g.options.BaseDir name) = none →
      env.run (g.buildArgs (Join g.options.BaseDir name) mediaUrl) =
        { result := result, err := none } →
      result.ExitCode = 0 →
      env.readDir (Join g.options.BaseDir name) =
        Except.ok [⟨"media.mp4", false⟩, ⟨"media.webp", false⟩, ⟨"media.mp4.part", false⟩] →
      g.Download caseTable env mediaUrl name = Except.ok
        [ { Name := "media.mp4", Path := Join (Join g.options.BaseDir name) "media.mp4",
            Ext := ".mp4", MediaType := MediaType.Video },
          { Name := "media.webp", Path := Join (Join g.options.BaseDir name) "media.webp",
            Ext := ".webp", MediaType := MediaType.Photo } ]) := by
  constructor
  · intro files rs hread hvalid hok
    unfold Grabber.Download at hok
    simp only [] at hok
    split at hok
    · cases hok
    · split at hok
      · cases hok
      · split_ifs at hok
        rw [hread] at hok
        simp only [] at hok
        split_ifs at hok with hlen
        simp only [Except.ok.injEq] at hok
        rw [← hok, foldl_scanFile_valid _ _ _ hvalid]
  · intro result hmk hrun hexit hread
    have hvalid : ∀ f ∈ [DirEntry.mk "media.mp4" false, DirEntry.mk "media.webp" false,
        DirEntry.mk "media.mp4.part" false], validName f.Name := by decide
    have e1 : ToLower caseTable (Ext "media.mp4") = ".mp4" := rfl
    have e2 : ToLower caseTable (Ext "media.webp") = ".webp" := rfl
    have s1 : HasSuffix "media.mp4" ".part" = false := by decide
    have s2 : HasSuffix "media.webp" ".part" = false := by decide
    have s3 : HasSuffix "media.mp4.part" ".part" = true := by decide
    have f1 : findFileType ".mp4" = MediaType.Video := by decide
    have f2 : findFileType ".webp" = MediaType.Photo := by decide
    have hscan := foldl_scanFile_valid caseTable (Join g.options.BaseDir name) _ hvalid
    simp only [List.filter_cons, List.filter_nil, e1, e2, s1, s2, s3, f1, f2] at hscan
    simp at hscan
    simp [Grabber.Download, hmk, hrun, hexit, hread, hscan, e1, e2, f1, f2]

theorem Download_results_witness :
    (∀ f ∈ [DirEntry.mk "media.mp4" false, DirEntry.mk "media.webp" false,
        DirEntry.mk "media.mp4.part" false], validName f.Name) ∧
    New.Download idTable
        (successEnv [⟨"media.mp4", false⟩, ⟨"media.webp", false⟩, ⟨"media.mp4.part", false⟩])
        "https://youtu.be/dQw4w9WgXcQ" "1_2_3" = Except.ok
      [ { Name := "media.mp4", Path := Join (Join New.options.BaseDir "1_2_3") "media.mp4",
          Ext := ".mp4", MediaType := MediaType.Video },
        { Name := "media.webp", Path := Join (Join New.options.BaseDir "1_2_3") "media.webp",
          Ext := ".webp", MediaType := MediaType.Photo } ] ∧
    [ ({ Name := "media.mp4", Path := Join (Join New.options.BaseDir "1_2_3") "media.mp4",
          Ext := ".mp4", MediaType := MediaType.Video } : FileResult),
        { Name := "media.webp", Path := Join (Join New.options.BaseDir "1_2_3") "media.webp",
          Ext := ".webp", MediaType := MediaType.Photo } ] =
      ([DirEntry.mk "media.mp4" false, DirEntry.mk "media.webp" false,
          DirEntry.mk "media.mp4.part" false].filter
        (fun f => !f.IsDir && !HasSuffix f.Name ".part" &&
          decide (findFileType (ToLower idTable (Ext f.Name)) ≠ MediaType.None))).map
        (fun f =>
          { Name := f.Name
            Path := Join (Join New.options.BaseDir "1_2_3") f.Name
            Ext := ToLower idTable (Ext f.Name)
            MediaType := findFileType (ToLower idTable (Ext f.Name)) }) :=
  ⟨by decide,
    (Download_results idTable
      (successEnv [⟨"media.mp4", false⟩, ⟨"media.webp", false⟩, ⟨"media.mp4.part", false⟩])
      New "https://youtu.be/dQw4w9WgXcQ" "1_2_3").2 ⟨0, ""⟩ rfl rfl rfl rfl,
    (Download_results idTable
      (successEnv [⟨"media.mp4", false⟩, ⟨"media.webp", false⟩, ⟨"media.mp4.part", false⟩])
      New "https://youtu.be/dQw4w9WgXcQ" "1_2_3").1 _ _ rfl (by decide)
      ((Download_results idTable
        (successEnv [⟨"media.mp4", false⟩, ⟨"media.webp", false⟩, ⟨"media.mp4.part", false⟩])
        New "https://youtu.be/dQw4w9WgXcQ" "1_2_3").2 ⟨0, ""⟩ rfl rfl rfl rfl)⟩

/-! ## Failures of the download tool -/

theorem Contains_append_right (a b : String) : Contains (a ++ b) b = true := by
  rw [Contains_iff]
  exact ⟨a.data, [], by simp [String.data_append]⟩

theorem Contains_trans (s t u : String) (h1 : Contains s t = true) (h2 : Contains t u = true) :
    Contains s u = true := by
  rw [Contains_iff] at *
  exact h2.trans h1

/-- C12, as stated, fails: when the client reports the non-zero exit of the tool as an error,
Download returns "yt-dlp error: " followed by the message of that error, and this message
does not contain the complete diagnostic text of the tool (here the text ends in a line
break that the message of the client does not have). -/
theorem Download_error_without_stderr :
    (RunReturn.mk ⟨1, "ERROR: Unsupported URL\n"⟩
      (some "exit code 1: ERROR: Unsupported URL")).result.ExitCode ≠ 0 ∧
    New.Download idTable
        (runEnv ⟨⟨1, "ERROR: Unsupported URL\n"⟩,
          some "exit code 1: ERROR: Unsupported URL"⟩)
        "https://example.com/" "1_2_3" =
      Except.error "yt-dlp error: exit code 1: ERROR: Unsupported URL" ∧
    Contains "yt-dlp error: exit code 1: ERROR: Unsupported URL"
      "ERROR: Unsupported URL\n" = false := by
  refine ⟨by decide, ?_, by decide⟩
  have h : "yt-dlp error: " ++ "exit code 1: ERROR: Unsupported URL" =
      "yt-dlp error: exit code 1: ERROR: Unsupported URL" := by decide
  simp [Grabber.Download, runEnv, h]

/-- C12, amended: whenever the directory is created and the tool finishes with a non-zero exit
status, Download returns an error and no results. When the client reports the failed run as
an error, the message is "yt-dlp error: " followed by the message of that error, so every
substring of the message of the client is a substring of the message of Download; when the
client returns the result without an error, the message is "yt-dlp failed with exit code
<code>: <stderr>" and contains the complete diagnostic text and every substring of it. When
directory creation fails, Download returns the directory error whatever the tool run and the
listing would give. -/
theorem Download_tool_failure (caseTable : Char → Char) (env : Env) (g : Grabber)
    (mediaUrl name : String) :
    (env.mkdirAll (Join g.options.BaseDir name) = none →
      (env.run (g.buildArgs (Join g.options.BaseDir name) mediaUrl)).result.ExitCode ≠ 0 →
      (∃ msg, g.Download caseTable env mediaUrl name = Except.error msg) ∧
      (∀ e : String,
        (env.run (g.buildArgs (Join g.options.BaseDir name) mediaUrl)).err = some e →
        g.Download caseTable env mediaUrl name = Except.error ("yt-dlp error: " ++ e) ∧
        ∀ sub : String, Contains e sub = true →
          Contains ("yt-dlp error: " ++ e) sub = true) ∧
      ((env.run (g.buildArgs (Join g.options.BaseDir name) mediaUrl)).err = none →
        g.Download caseTable env mediaUrl name = Except.error
          ("yt-dlp failed with exit code " ++
            toString (env.run (g.buildArgs (Join g.options.BaseDir name)
              mediaUrl)).result.ExitCode ++ ": " ++
            (env.run (g.buildArgs (Join g.options.BaseDir name) mediaUrl)).result.Stderr) ∧
        ∀ sub : String,
          Contains (env.run (g.buildArgs (Join g.options.BaseDir name)
            mediaUrl)).result.Stderr sub = true →
          Contains ("yt-dlp failed with exit code " ++
            toString (env.run (g.buildArgs (Join g.options.BaseDir name)
              mediaUrl)).result.ExitCode ++ ": " ++
            (env.run (g.buildArgs (Join g.options.BaseDir name) mediaUrl)).result.Stderr)
            sub = true)) ∧
    (∀ err : String, env.mkdirAll (Join g.options.BaseDir name) = some err →
      ∀ env2 : Env, env2.mkdirAll = env.mkdirAll →
        g.Download caseTable env2 mediaUrl name = Except.error
          ("could not create download directory '" ++ Join g.options.BaseDir name ++ "': " ++
            err)) := by
  constructor
  · intro hmk hexit
    have herr : ∀ e : String,
        (env.run (g.buildArgs (Join g.options.BaseDir name) mediaUrl)).err = some e →
        g.Download caseTable env mediaUrl name = Except.error ("yt-dlp error: " ++ e) := by
      intro e he
      simp [Grabber.Download, hmk, he]
    have hnone : (env.run (g.buildArgs (Join g.options.BaseDir name) mediaUrl)).err = none →
        g.Download caseTable env mediaUrl name = Except.error
          ("yt-dlp failed with exit code " ++
            toString (env.run (g.buildArgs (Join g.options.BaseDir name)
              mediaUrl)).result.ExitCode ++ ": " ++
            (env.run (g.buildArgs (Join g.options.BaseDir name) mediaUrl)).result.Stderr) := by
      intro he
      simp [Grabber.Download, hmk, he, hexit]
    refine ⟨?_, fun e he => ⟨herr e he, fun sub hsub => ?_⟩,
      fun he => ⟨hnone he, fun sub hsub => ?_⟩⟩
    · cases he : (env.run (g.buildArgs (Join g.options.BaseDir name) mediaUrl)).err with
      | none => exact ⟨_, hnone he⟩
      | some e => exact ⟨_, herr e he⟩
    · exact Contains_trans _ _ _ (Contains_append_right _ _) hsub
    · exact Contains_trans _ _ _ (Contains_append_right _ _) hsub
  · intro err hmk env2 h2
    have hmk2 : env2.mkdirAll (Join g.options.BaseDir name) = some err := by rw [h2, hmk]
    simp [Grabber.Download, hmk2]

theorem Download_tool_failure_witness :
    New.Download idTable
        (runEnv ⟨⟨1, "ERROR: Unsupported URL\n"⟩,
          some "exit code 1: ERROR: Unsupported URL"⟩)
        "https://example.com/" "1_2_3" =
      Except.error ("yt-dlp error: " ++
        "exit code 1: ERROR: Unsupported URL") ∧
    Contains ("yt-dlp error: " ++ "exit code 1: ERROR: Unsupported URL")
      "Unsupported URL" = true :=
  ⟨(((Download_tool_failure idTable
      (runEnv ⟨⟨1, "ERROR: Unsupported URL\n"⟩,
        some "exit code 1: ERROR: Unsupported URL"⟩) New
      "https://example.com/" "1_2_3").1 rfl (by decide)).2.1
      "exit code 1: ERROR: Unsupported URL" rfl).1,
    (((Download_tool_failure idTable
      (runEnv ⟨⟨1, "ERROR: Unsupported URL\n"⟩,
        some "exit code 1: ERROR: Unsupported URL"⟩) New
      "https://example.com/" "1_2_3").1 rfl (by decide)).2.1
      "exit code 1: ERROR: Unsupported URL" rfl).2
      "Unsupported URL" (by decide)⟩

/-! ## The default options -/

/-- C13: the Grabber returned by New has the documented default options, and for it buildArgs
emits the output template and every optional flag except "--recode-video", then the URL. -/
theorem New_defaults :
    New.options =
      { BaseDir := "media/"
        MaxFileSize := "49M"
        Format := "bestvideo[ext=mp4]+bestaudio[ext=m4a]/best[ext=mp4]/best"
        RestrictFilenames := true
        RecodeVideo := ""
        NoPlaylist := true
        WriteThumbnail := true
        OutputTemplate := "media.%(ext)s" } ∧
    (∀ outputPath mediaUrl : String,
      New.buildArgs outputPath mediaUrl =
        ["-o", Join outputPath "media.%(ext)s", "--restrict-filenames", "--no-playlist",
          "--max-filesize", "49M", "--write-thumbnail", "--format",
          "bestvideo[ext=mp4]+bestaudio[ext=m4a]/best[ext=mp4]/best", mediaUrl]) := by
  refine ⟨rfl, fun outputPath mediaUrl => ?_⟩
  rw [buildArgs_blocks]
  simp [New, defaultOptions]

/-! ## Overlap of the platform rules -/

/-- First-match-wins evaluation either finds no matching rule and yields Unknown, or yields
the platform of a matching rule of the list. -/
theorem firstMatch_cases (rules : List Rule) (host path : String) :
    (firstMatch rules host path = Platform.Unknown ∧ ∀ r ∈ rules, r.cond host path = false) ∨
    (∃ r ∈ rules, r.cond host path = true ∧ firstMatch rules host path = r.platform) := by
  induction rules with
  | nil => left; simp [firstMatch]
  | cons r rest ih =>
    cases hr : r.cond host path with
    | true =>
      right
      exact ⟨r, List.mem_cons_self _ _, hr, by simp [firstMatch, hr]⟩
    | false =>
      rcases ih with ⟨h1, h2⟩ | ⟨r2, hmem, hc, hf⟩
      · left
        refine ⟨by simp [firstMatch, hr, h1], ?_⟩
        intro x hx
        rcases List.mem_cons.1 hx with h | h
        · rw [h]; exact hr
        · exact h2 x h
      · right
        exact ⟨r2, List.mem_cons_of_mem _ hmem, hc, by simp [firstMatch, hr, hf]⟩

/-- C16, as stated, fails: on the hostname "tiktok.com.x.com" both the tiktok rule and the
twitter rule hold; IdentifyPlatform returns Tiktok, and the evaluation of the same rules in
the reverse order returns Twitter. -/
theorem rules_overlap :
    (Contains (ToLower idTable "tiktok.com.x.com") "tiktok.com" = true ∧
      (Contains (ToLower idTable "tiktok.com.x.com") "twitter.com" ||
        Contains (ToLower idTable "tiktok.com.x.com") "x.com") = true) ∧
    IdentifyPlatform idTable (parsesTo ⟨"tiktok.com.x.com", "/video/1"⟩)
      "https://tiktok.com.x.com/video/1" = Platform.Tiktok ∧
    firstMatch specRules.reverse (ToLower idTable "tiktok.com.x.com")
      (ToLower idTable "/video/1") = Platform.Twitter := by
  decide

/-- C16, amended: the rule conditions can overlap, and then the priority order decides. For
every URL on whose lowercased hostname and path at most one of the four rule conditions holds,
the first-match-wins evaluation gives the same result under every evaluation order of the
rules, namely the result of IdentifyPlatform. -/
theorem identify_order_independent (caseTable : Char → Char) (urlParse : String → Option URL)
    (webUrl : String) (u : URL) (hparse : urlParse webUrl = some u)
    (hexcl : ∀ r1 ∈ specRules, ∀ r2 ∈ specRules,
      r1.cond (ToLower caseTable u.Hostname) (ToLower caseTable u.Path) = true →
      r2.cond (ToLower caseTable u.Hostname) (ToLower caseTable u.Path) = true →
      r1.platform = r2.platform)
    (rules : List Rule) (hperm : rules.Perm specRules) :
    firstMatch rules (ToLower caseTable u.Hostname) (ToLower caseTable u.Path) =
      IdentifyPlatform caseTable urlParse webUrl := by
  have hid : IdentifyPlatform caseTable urlParse webUrl =
      firstMatch specRules (ToLower caseTable u.Hostname) (ToLower caseTable u.Path) := by
    simp only [IdentifyPlatform, hparse, firstMatch, specRules]
  rw [hid]
  rcases firstMatch_cases rules (ToLower caseTable u.Hostname) (ToLower caseTable u.Path) with
    ⟨h1, h2⟩ | ⟨r, hr, hc, hf⟩ <;>
  rcases firstMatch_cases specRules (ToLower caseTable u.Hostname)
      (ToLower caseTable u.Path) with ⟨k1, k2⟩ | ⟨s, hs, kc, kf⟩
  · rw [h1, k1]
  · have := h2 s (hperm.mem_iff.2 hs)
    rw [this] at kc
    cases kc
  · have := k2 r (hperm.mem_iff.1 hr)
    rw [this] at hc
    cases hc
  · rw [hf, kf]
    exact hexcl r (hperm.mem_iff.1 hr) s hs hc kc

theorem identify_order_independent_witness :
    firstMatch specRules.reverse (ToLower idTable "youtu.be") (ToLower idTable "/dQw4w9WgXcQ") =
      IdentifyPlatform idTable (parsesTo ⟨"youtu.be", "/dQw4w9WgXcQ"⟩)
        "https://youtu.be/dQw4w9WgXcQ" :=
  identify_order_independent idTable (parsesTo ⟨"youtu.be", "/dQw4w9WgXcQ"⟩)
    "https://youtu.be/dQw4w9WgXcQ" ⟨"youtu.be", "/dQw4w9WgXcQ"⟩ rfl (by decide)
    specRules.reverse (List.reverse_perm specRules)

/-! ## The cleanup of the chat integration -/

/-- C17 fails on the code: for chat 1, message 2 and timestamp 3 the path handed to
os.RemoveAll is the bare destination name "chat1_msg2_ts3", whereas the directory Download
created for the request is "media/chat1_msg2_ts3". -/
theorem sendMediaMessage_removes_other_path :
    sendMediaMessageRemovePath 1 2 3 = "chat1_msg2_ts3" ∧
    sendMediaMessageDownloadDir 1 2 3 = "media/chat1_msg2_ts3" ∧
    sendMediaMessageRemovePath 1 2 3 ≠ sendMediaMessageDownloadDir 1 2 3 := by
  have h1 : sendMediaMessageRemovePath 1 2 3 = "chat1_msg2_ts3" := by decide
  have h2 : sendMediaMessageDownloadDir 1 2 3 = "media/chat1_msg2_ts3" := by
    have hn : requestName 1 2 3 = "chat1_msg2_ts3" := by decide
    simp [sendMediaMessageDownloadDir, hn, mediaGrabber, Grabber.WithBaseDir,
      Grabber.WithRecodeVideo, New, defaultOptions, DOWNLOAD_DIR, Join, Clean, cleanLoop]
  refine ⟨h1, h2, ?_⟩
  rw [h1, h2]
  decide

/-! ## The shape of cleaned paths -/

theorem rbuf_cons (rooted : Bool) (e : List Char) (es : List (List Char)) :
    rbuf rooted (e :: es) =
      e.reverse ++ (if es = [] then rbuf rooted [] else '/' :: rbuf rooted es) := by
  simp [rbuf]

theorem rbuf_length_le_cons (rooted : Bool) (e : List Char) (es : List (List Char)) :
    (rbuf rooted es).length ≤ (rbuf rooted (e :: es)).length := by
  rw [rbuf_cons]
  split_ifs with h
  · subst h; simp
  · simp only [List.length_append, List.length_cons]; omega

theorem rbuf_length_lt_cons (rooted : Bool) (e : List Char) (es : List (List Char))
    (he : e ≠ []) : (rbuf rooted es).length < (rbuf rooted (e :: es)).length := by
  have hpos : 0 < e.length := List.length_pos.2 he
  rw [rbuf_cons]
  split_ifs with h
  · subst h; simp only [List.length_append, List.length_reverse]; omega
  · simp only [List.length_append, List.length_cons, List.length_reverse]; omega

theorem rbuf_length_le_append (rooted : Bool) (top es : List (List Char)) :
    (rbuf rooted es).length ≤ (rbuf rooted (top ++ es)).length := by
  induction top with
  | nil => simp
  | cons t top ih => exact le_trans ih (rbuf_length_le_cons rooted t (top ++ es))

/-- The condition under which `Clean` writes a separator before an element holds exactly when
the buffer already holds an element. -/
theorem rbuf_sep_iff (rooted : Bool) (es : List (List Char)) (hes : ∀ e ∈ es, e ≠ []) :
    ((rooted = true ∧ (rbuf rooted es).length ≠ 1) ∨
      (rooted = false ∧ (rbuf rooted es).length ≠ 0)) ↔ es ≠ [] := by
  cases es with
  | nil => cases rooted <;> simp [rbuf]
  | cons e es =>
    have h1 := rbuf_length_lt_cons rooted e es (hes e (List.mem_cons_self _ _))
    have h2 : (if rooted = true then 1 else 0) ≤ (rbuf rooted es).length := by
      have := rbuf_length_le_append rooted es []
      simp only [List.append_nil] at this
      cases rooted <;> simp_all [rbuf]
    cases rooted
    · simp only [Bool.false_eq_true, false_and, true_and, false_or, ne_eq,
        not_false_eq_true, iff_true, reduceCtorEq]
      omega
    · simp only [true_and, Bool.true_eq_false, false_and, or_false, ne_eq, not_false_eq_true,
        iff_true, reduceCtorEq]
      simp only [if_true] at h2
      omega

theorem backtrack_cons (dotdot : Nat) (c : Char) (rest : List Char) :
    backtrack dotdot (c :: rest) =
      if rest.length > dotdot ∧ c ≠ '/' then backtrack dotdot rest else rest := rfl

theorem backtrack_to_sep (dotdot : Nat) (l Y : List Char) (hl : '/' ∉ l)
    (hd : dotdot ≤ Y.length) : backtrack dotdot (l ++ '/' :: Y) = Y := by
  induction l with
  | nil => simp [backtrack]
  | cons c l ih =>
    simp only [List.mem_cons, not_or] at hl
    have hc : c ≠ '/' := fun h => hl.1 h.symm
    have hlen : (l ++ '/' :: Y).length > dotdot := by
      simp only [List.length_append, List.length_cons]; omega
    rw [List.cons_append, backtrack_cons, if_pos ⟨hlen, hc⟩]
    exact ih hl.2

theorem backtrack_to_dotdot (dotdot : Nat) (l B : List Char) (hl : '/' ∉ l) (hne : l ≠ [])
    (hd : B.length = dotdot) : backtrack dotdot (l ++ B) = B := by
  induction l with
  | nil => exact absurd rfl hne
  | cons c l ih =>
    simp only [List.mem_cons, not_or] at hl
    have hc : c ≠ '/' := fun h => hl.1 h.symm
    by_cases hl0 : l = []
    · subst hl0
      simp [backtrack, hd]
    · have hlen : (l ++ B).length > dotdot := by
        have := List.length_pos.2 hl0
        simp only [List.length_append]; omega
      rw [List.cons_append, backtrack_cons, if_pos ⟨hlen, hc⟩]
      exact ih hl.2 hl0

/-- Backtracking from a buffer of elements removes the last element. -/
theorem backtrack_rbuf (rooted : Bool) (dotdot : Nat) (t : List Char) (es : List (List Char))
    (ht : t ≠ []) (hs : '/' ∉ t) (hd : dotdot ≤ (rbuf rooted es).length)
    (h0 : es = [] → dotdot = (rbuf rooted []).length) :
    backtrack dotdot (rbuf rooted (t :: es)) = rbuf rooted es := by
  have hs' : '/' ∉ t.reverse := by simpa using hs
  have ht' : t.reverse ≠ [] := by simpa using ht
  rw [rbuf_cons]
  split_ifs with h
  · subst h
    exact backtrack_to_dotdot dotdot _ _ hs' ht' (h0 rfl).symm
  · exact backtrack_to_sep dotdot _ _ hs' hd

theorem replicate_dotdot_ne_nil (top : List (List Char)) (k : Nat) :
    ∀ e ∈ top ++ List.replicate k ['.', '.'], (∀ x ∈ top, x ≠ []) → e ≠ [] := by
  intro e he htop
  rcases List.mem_append.1 he with h | h
  · exact htop e h
  · rw [List.eq_of_mem_replicate h]; simp

/-- The element `Clean` copies in its default case is an element it keeps, and is not "..". -/
theorem copied_elem_good (c : Char) (rest : List Char) (c1 : c ≠ '/')
    (c2 : ¬(c = '.' ∧ (rest = [] ∨ rest.head? = some '/')))
    (c3 : ¬(c = '.' ∧ rest.head? = some '.' ∧
      (rest.tail = [] ∨ rest.tail.head? = some '/'))) :
    goodElem (c :: rest.takeWhile (fun x => decide (x ≠ '/'))) ∧
      c :: rest.takeWhile (fun x => decide (x ≠ '/')) ≠ ['.', '.'] := by
  have htw : ∀ l : List Char, l.takeWhile (fun x => decide (x ≠ '/')) = [] →
      l = [] ∨ l.head? = some '/' := by
    intro l hl
    cases l with
    | nil => exact Or.inl rfl
    | cons d t =>
      right
      by_cases hd : d = '/'
      · simp [hd]
      · simp [List.takeWhile, hd] at hl
  refine ⟨⟨List.cons_ne_nil _ _, ?_, ?_⟩, ?_⟩
  · intro hmem
    rcases List.mem_cons.1 hmem with h | h
    · exact c1 h.symm
    · have := List.mem_takeWhile_imp h
      simp at this
  · intro h
    simp only [List.cons.injEq] at h
    exact c2 ⟨h.1, htw rest h.2⟩
  · intro h
    simp only [List.cons.injEq] at h
    obtain ⟨hc, ht⟩ := h
    cases rest with
    | nil => simp at ht
    | cons d t =>
      by_cases hd : d = '/'
      · simp [List.takeWhile, hd] at ht
      · simp only [List.takeWhile, ne_eq, hd, not_false_eq_true, decide_True,
          List.cons.injEq] at ht
        exact c3 ⟨hc, by simp [ht.1], by simpa using htw t ht.2⟩

/-- The output of the main loop of `Clean`, started on a buffer of kept elements above `k`
leading ".." elements, is again such a buffer. -/
theorem cleanLoop_normal (rooted : Bool) :
    ∀ (n : Nat) (path : List Char) (top : List (List Char)) (k : Nat), path.length ≤ n →
      (∀ e ∈ top, goodElem e ∧ e ≠ ['.', '.']) → (rooted = true → k = 0) →
      ∃ (top1 : List (List Char)) (k1 : Nat),
        (∀ e ∈ top1, goodElem e ∧ e ≠ ['.', '.']) ∧ (rooted = true → k1 = 0) ∧
        cleanLoop rooted path (rbuf rooted (top ++ List.replicate k ['.', '.']))
            (rbuf rooted (List.replicate k ['.', '.'])).length =
          rbuf rooted (top1 ++ List.replicate k1 ['.', '.']) := by
  intro n
  induction n with
  | zero =>
    intro path top k hn htop hk
    have : path = [] := List.length_eq_zero.1 (Nat.le_zero.1 hn)
    subst this
    exact ⟨top, k, htop, hk, by rw [cleanLoop]⟩
  | succ n ih =>
    intro path top k hn htop hk
    cases path with
    | nil => exact ⟨top, k, htop, hk, by rw [cleanLoop]⟩
    | cons c rest =>
      have hn1 : rest.length ≤ n := by simp only [List.length_cons] at hn; omega
      have hne : ∀ e ∈ top ++ List.replicate k ['.', '.'], e ≠ [] := fun e he =>
        replicate_dotdot_ne_nil top k e he (fun x hx => (htop x hx).1.1)
      rw [cleanLoop]
      by_cases c1 : c = '/'
      · rw [if_pos c1]
        exact ih rest top k hn1 htop hk
      rw [if_neg c1]
      by_cases c2 : c = '.' ∧ (rest = [] ∨ rest.head? = some '/')
      · rw [if_pos c2]
        exact ih rest top k hn1 htop hk
      rw [if_neg c2]
      by_cases c3 : c = '.' ∧ rest.head? = some '.' ∧
          (rest.tail = [] ∨ rest.tail.head? = some '/')
      · rw [if_pos c3]
        have hn2 : rest.tail.length ≤ n := by
          have := List.length_tail rest
          omega
        by_cases c4 : (rbuf rooted (top ++ List.replicate k ['.', '.'])).length >
            (rbuf rooted (List.replicate k ['.', '.'])).length
        · rw [if_pos c4]
          cases top with
          | nil => simp at c4
          | cons t top2 =>
            have ht := htop t (List.mem_cons_self _ _)
            rw [List.cons_append, backtrack_rbuf rooted _ t _ ht.1.1 ht.1.2.1
              (rbuf_length_le_append rooted top2 _)]
            · exact ih rest.tail top2 k hn2 (fun e he => htop e (List.mem_cons_of_mem _ he)) hk
            · intro h0
              have hk0 : List.replicate k ['.', '.'] = [] := (List.append_eq_nil.1 h0).2
              rw [hk0]
        · rw [if_neg c4]
          have htop0 : top = [] := by
            cases top with
            | nil => rfl
            | cons t top2 =>
              exfalso
              apply c4
              rw [List.cons_append]
              exact lt_of_le_of_lt (rbuf_length_le_append rooted top2 _)
                (rbuf_length_lt_cons rooted t _ (htop t (List.mem_cons_self _ _)).1.1)
          subst htop0
          by_cases c5 : rooted = false
          · rw [if_pos c5]
            subst c5
            have hpush : ('.' :: '.' ::
                if (rbuf false ([] ++ List.replicate k ['.', '.'])).length > 0 then
                  '/' :: rbuf false ([] ++ List.replicate k ['.', '.'])
                else rbuf false ([] ++ List.replicate k ['.', '.'])) =
                rbuf false (List.replicate (k + 1) ['.', '.']) := by
              rw [List.replicate_succ, rbuf_cons, List.nil_append]
              cases k with
              | zero => simp [rbuf]
              | succ j =>
                have hlt := rbuf_length_lt_cons false ['.', '.'] (List.replicate j ['.', '.'])
                  (by simp)
                have hpos : (rbuf false (List.replicate (j + 1) ['.', '.'])).length > 0 := by
                  rw [List.replicate_succ]; omega
                rw [if_pos hpos, if_neg (by simp [List.replicate_succ])]
                rfl
            have hlen : (if (rbuf false ([] ++ List.replicate k ['.', '.'])).length > 0 then
                  '/' :: rbuf false ([] ++ List.replicate k ['.', '.'])
                else rbuf false ([] ++ List.replicate k ['.', '.'])).length + 2 =
                (rbuf false (List.replicate (k + 1) ['.', '.'])).length := by
              rw [← hpush]; simp
            simp only []
            rw [hlen, hpush]
            have := ih rest.tail [] (k + 1) hn2 (by simp) (by simp)
            simpa using this
          · rw [if_neg c5]
            exact ih rest.tail [] k hn2 htop hk
      rw [if_neg c3]
      obtain ⟨hgood, hndd⟩ := copied_elem_good c rest c1 c2 c3
      have hsep := rbuf_sep_iff rooted (top ++ List.replicate k ['.', '.']) hne
      have hbuf : ((rest.takeWhile (fun x => decide (x ≠ '/'))).reverse ++ c ::
            if (rooted = true ∧ (rbuf rooted (top ++ List.replicate k ['.', '.'])).length ≠ 1) ∨
                (rooted = false ∧
                  (rbuf rooted (top ++ List.replicate k ['.', '.'])).length ≠ 0) then
              '/' :: rbuf rooted (top ++ List.replicate k ['.', '.'])
            else rbuf rooted (top ++ List.replicate k ['.', '.'])) =
          rbuf rooted ((c :: rest.takeWhile (fun x => decide (x ≠ '/'))) :: top ++
            List.replicate k ['.', '.']) := by
        rw [List.cons_append, rbuf_cons]
        by_cases h0 : top ++ List.replicate k ['.', '.'] = []
        · rw [if_neg (fun h => hsep.1 h h0), if_pos h0, h0]
          simp
        · rw [if_pos (hsep.2 h0), if_neg h0]
          simp
      simp only []
      rw [hbuf]
      have hdrop : (rest.dropWhile (fun x => decide (x ≠ '/'))).length ≤ n :=
        le_trans (List.dropWhile_suffix _).length_le hn1
      refine ih _ ((c :: rest.takeWhile (fun x => decide (x ≠ '/'))) :: top) k hdrop ?_ hk
      intro e he
      rcases List.mem_cons.1 he with h | h
      · rw [h]; exact ⟨hgood, hndd⟩
      · exact htop e h

theorem takeWhile_dropWhile_stop (q : Char → Bool) (l T : List Char) (s : Char)
    (hl : ∀ x ∈ l, q x = true) (hs : q s = false) :
    (l ++ s :: T).takeWhile q = l ∧ (l ++ s :: T).dropWhile q = s :: T := by
  induction l with
  | nil => simp [List.takeWhile, List.dropWhile, hs]
  | cons c l ih =>
    obtain ⟨h1, h2⟩ := ih (fun x hx => hl x (List.mem_cons_of_mem _ hx))
    have hc : q c = true := hl c (List.mem_cons_self _ _)
    simp [List.takeWhile, List.dropWhile, hc, h1, h2]

theorem takeWhile_dropWhile_elem (l T : List Char) (hl : '/' ∉ l) :
    (l ++ '/' :: T).takeWhile (fun x => decide (x ≠ '/')) = l ∧
    (l ++ '/' :: T).dropWhile (fun x => decide (x ≠ '/')) = '/' :: T := by
  apply takeWhile_dropWhile_stop
  · intro x hx
    have : x ≠ '/' := fun h => hl (h ▸ hx)
    simpa using this
  · simp

theorem cleanLoop_sep (rooted : Bool) (T rout : List Char) (dotdot : Nat) :
    cleanLoop rooted ('/' :: T) rout dotdot = cleanLoop rooted T rout dotdot := by
  rw [cleanLoop, if_pos rfl]

/-- One step of `Clean` over a kept element, other than "..", that is followed by a
separator: the element is pushed on the buffer. -/
theorem cleanLoop_elem (rooted : Bool) (e T : List Char) (ds : List (List Char)) (dotdot : Nat)
    (he : goodElem e) (hdd : e ≠ ['.', '.']) (hds : ∀ x ∈ ds, x ≠ []) :
    cleanLoop rooted (e ++ '/' :: T) (rbuf rooted ds) dotdot =
      cleanLoop rooted T (rbuf rooted (e :: ds)) dotdot := by
  obtain ⟨hne, hs, hdot⟩ := he
  cases e with
  | nil => exact absurd rfl hne
  | cons c e1 =>
    simp only [List.mem_cons, not_or] at hs
    have c1 : c ≠ '/' := fun h => hs.1 h.symm
    have hhead : ∀ l : List Char, '/' ∉ l → (l ++ '/' :: T).head? = some '/' → l = [] := by
      intro l hl hh
      cases l with
      | nil => rfl
      | cons d t =>
        simp only [List.cons_append, List.head?_cons, Option.some.injEq] at hh
        exact absurd (List.mem_cons_self d t) (hh ▸ hl)
    have c2 : ¬(c = '.' ∧ (e1 ++ '/' :: T = [] ∨ (e1 ++ '/' :: T).head? = some '/')) := by
      rintro ⟨hc, h | h⟩
      · simp at h
      · exact hdot (by rw [hc, hhead e1 hs.2 h])
    have c3 : ¬(c = '.' ∧ (e1 ++ '/' :: T).head? = some '.' ∧
        ((e1 ++ '/' :: T).tail = [] ∨ (e1 ++ '/' :: T).tail.head? = some '/')) := by
      rintro ⟨hc, hh, ht⟩
      cases e1 with
      | nil => simp at hh
      | cons d e2 =>
        simp only [List.cons_append, List.head?_cons, Option.some.injEq] at hh
        simp only [List.cons_append, List.tail_cons] at ht
        simp only [List.mem_cons, not_or] at hs
        rcases ht with h | h
        · simp at h
        · exact hdd (by rw [hc, hh, hhead e2 hs.2.2 h])
    obtain ⟨htake, hdrop⟩ := takeWhile_dropWhile_elem e1 T hs.2
    have hsep := rbuf_sep_iff rooted ds hds
    rw [List.cons_append, cleanLoop, if_neg c1, if_neg c2, if_neg c3]
    simp only [htake, hdrop]
    rw [cleanLoop_sep, rbuf_cons]
    by_cases h0 : ds = []
    · rw [if_neg (fun h => hsep.1 h h0), if_pos h0, h0]
      simp
    · rw [if_pos (hsep.2 h0), if_neg h0]
      simp

/-- The kept elements `fs`, none of them "..", each followed by a separator, are pushed on the
buffer in turn. -/
theorem cleanLoop_elems (rooted : Bool) (dotdot : Nat) (rest : List Char) :
    ∀ (fs ds : List (List Char)), (∀ e ∈ fs, goodElem e ∧ e ≠ ['.', '.']) →
      (∀ x ∈ ds, x ≠ []) →
      cleanLoop rooted (withSlashes fs ++ rest) (rbuf rooted ds) dotdot =
        cleanLoop rooted rest (rbuf rooted (fs.reverse ++ ds)) dotdot := by
  intro fs
  induction fs with
  | nil => intro ds _ _; simp [withSlashes]
  | cons e fs ih =>
    intro ds hfs hds
    have he := hfs e (List.mem_cons_self _ _)
    have h1 : withSlashes (e :: fs) ++ rest = e ++ '/' :: (withSlashes fs ++ rest) := by
      simp [withSlashes]
    rw [h1, cleanLoop_elem rooted e _ ds dotdot he.1 he.2 hds,
      ih (e :: ds) (fun x hx => hfs x (List.mem_cons_of_mem _ hx))]
    · simp
    · intro x hx
      rcases List.mem_cons.1 hx with h | h
      · rw [h]; exact he.1.1
      · exact hds x h

/-- Leading ".." elements of an unrooted path are pushed on the buffer in turn. -/
theorem cleanLoop_dotdots (rest : List Char) :
    ∀ (k j : Nat),
      cleanLoop false (withSlashes (List.replicate k ['.', '.']) ++ rest)
          (rbuf false (List.replicate j ['.', '.']))
          (rbuf false (List.replicate j ['.', '.'])).length =
        cleanLoop false rest (rbuf false (List.replicate (k + j) ['.', '.']))
          (rbuf false (List.replicate (k + j) ['.', '.'])).length := by
  intro k
  induction k with
  | zero => intro j; simp [withSlashes]
  | succ k ih =>
    intro j
    have h1 : withSlashes (List.replicate (k + 1) ['.', '.']) ++ rest =
        '.' :: '.' :: '/' :: (withSlashes (List.replicate k ['.', '.']) ++ rest) := by
      simp [List.replicate_succ, withSlashes]
    have hpush : ('.' :: '.' ::
        if (rbuf false (List.replicate j ['.', '.'])).length > 0 then
          '/' :: rbuf false (List.replicate j ['.', '.'])
        else rbuf false (List.replicate j ['.', '.'])) =
        rbuf false (List.replicate (j + 1) ['.', '.']) := by
      rw [List.replicate_succ, rbuf_cons]
      cases j with
      | zero => simp [rbuf]
      | succ i =>
        have hlt := rbuf_length_lt_cons false ['.', '.'] (List.replicate i ['.', '.'])
          (by simp)
        have hpos : (rbuf false (List.replicate (i + 1) ['.', '.'])).length > 0 := by
          rw [List.replicate_succ]; omega
        rw [if_pos hpos, if_neg (by simp [List.replicate_succ])]
        rfl
    have hlen : (if (rbuf false (List.replicate j ['.', '.'])).length > 0 then
          '/' :: rbuf false (List.replicate j ['.', '.'])
        else rbuf false (List.replicate j ['.', '.'])).length + 2 =
        (rbuf false (List.replicate (j + 1) ['.', '.'])).length := by
      rw [← hpush]; simp
    rw [h1, cleanLoop, if_neg (by decide), if_neg (by simp), if_pos (by simp),
      if_neg (lt_irrefl _), if_pos rfl]
    simp only [List.tail_cons]
    rw [hlen, hpush, cleanLoop_sep, ih (j + 1)]
    have : k + (j + 1) = k + 1 + j := by omega
    rw [this]

theorem withSlashes_append (a b : List (List Char)) :
    withSlashes (a ++ b) = withSlashes a ++ withSlashes b := by
  induction a with
  | nil => rfl
  | cons e a ih => simp [withSlashes, ih]

/-- The buffer of elements, read forwards and closed by a separator when it holds an element,
is the root followed by the elements with their separators. -/
theorem rbuf_reverse_slash (rooted : Bool) (es : List (List Char)) :
    (rbuf rooted es).reverse ++ (if es = [] then [] else ['/']) =
      rbuf rooted [] ++ withSlashes es.reverse := by
  induction es with
  | nil => cases rooted <;> simp [rbuf, withSlashes]
  | cons e es ih =>
    rw [rbuf_cons, List.reverse_cons, withSlashes_append, ← List.append_assoc, ← ih]
    by_cases h : es = []
    · subst h
      cases rooted <;> simp [rbuf, withSlashes]
    · simp [h, withSlashes]

theorem rbuf_ne_nil_iff (rooted : Bool) (es : List (List Char)) (hes : ∀ e ∈ es, e ≠ []) :
    rbuf rooted es = [] ↔ es = [] ∧ rooted = false := by
  have hsep := rbuf_sep_iff rooted es hes
  cases rooted
  · simp only [Bool.false_eq_true, false_and, true_and, false_or, ne_eq] at hsep
    rw [← List.length_eq_zero]
    constructor
    · intro h
      exact ⟨not_not.1 (fun h0 => hsep.2 h0 h), rfl⟩
    · intro h
      exact not_not.1 (fun h0 => hsep.1 h0 h.1)
  · constructor
    · intro h
      cases es with
      | nil => simp [rbuf] at h
      | cons e es =>
        rw [rbuf_cons] at h
        have := hes e (List.mem_cons_self _ _)
        simp [this] at h
    · intro h
      cases h.2

/-- The elements of a cleaned path, fed to the main loop of `Clean` from its initial state,
rebuild the buffer that holds them. -/
theorem cleanLoop_cleaned (rooted : Bool) (top : List (List Char)) (k : Nat)
    (rest : List Char) (htop : ∀ e ∈ top, goodElem e ∧ e ≠ ['.', '.'])
    (hk : rooted = true → k = 0) :
    cleanLoop rooted (withSlashes (top ++ List.replicate k ['.', '.']).reverse ++ rest)
        (rbuf rooted []) (rbuf rooted []).length =
      cleanLoop rooted rest (rbuf rooted (top ++ List.replicate k ['.', '.']))
        (rbuf rooted (List.replicate k ['.', '.'])).length := by
  have htop' : ∀ e ∈ top.reverse, goodElem e ∧ e ≠ ['.', '.'] := fun e he =>
    htop e (List.mem_reverse.1 he)
  have hrep : ∀ x ∈ List.replicate k ['.', '.'], x ≠ [] := by
    intro x hx
    rw [List.eq_of_mem_replicate hx]; simp
  rw [List.reverse_append, List.reverse_replicate, withSlashes_append, List.append_assoc]
  cases rooted with
  | true =>
    have hk0 := hk rfl
    subst hk0
    simp only [List.replicate_zero, withSlashes, List.nil_append, List.append_nil]
    have := cleanLoop_elems true (rbuf true []).length rest top.reverse [] htop' (by simp)
    simpa using this
  | false =>
    have h1 := cleanLoop_dotdots (withSlashes top.reverse ++ rest) k 0
    simp only [List.replicate_zero, Nat.add_zero] at h1
    rw [h1, cleanLoop_elems false _ rest top.reverse _ htop' hrep, List.reverse_reverse]

/-- The result of `Clean` is a cleaned path, rooted exactly when the input begins with a
separator. -/
theorem Clean_isCleaned (path : String) :
    ∃ (top : List (List Char)) (k : Nat),
      IsCleaned (decide (path.data.head? = some '/')) top k (Clean path) := by
  unfold Clean
  by_cases h0 : path = ""
  · rw [if_pos h0]
    subst h0
    exact ⟨[], 0, by simp, by simp, by simp⟩
  rw [if_neg h0]
  simp only []
  by_cases hroot : path.data.head? = some '/'
  · simp only [hroot, decide_True, if_true]
    obtain ⟨top1, k1, h1, h2, h3⟩ := cleanLoop_normal true path.data.tail.length path.data.tail
      [] 0 le_rfl (by simp) (by simp)
    have hinit : rbuf true ([] ++ List.replicate 0 ['.', '.']) = ['/'] := by simp [rbuf]
    have hinit2 : (rbuf true (List.replicate 0 ['.', '.'])).length = 1 := by simp [rbuf]
    rw [hinit, hinit2] at h3
    rw [h3]
    have hne : rbuf true (top1 ++ List.replicate k1 ['.', '.']) ≠ [] := by
      intro h
      have := (rbuf_ne_nil_iff true _ (fun e he =>
        replicate_dotdot_ne_nil top1 k1 e he (fun x hx => (h1 x hx).1.1))).1 h
      cases this.2
    have hlen : (rbuf true (top1 ++ List.replicate k1 ['.', '.'])).length ≠ 0 := fun h =>
      hne (List.length_eq_zero.1 h)
    rw [if_neg hlen]
    exact ⟨top1, k1, h1, h2, by simp⟩
  · simp only [hroot, decide_False, if_false, Bool.false_eq_true]
    obtain ⟨top1, k1, h1, h2, h3⟩ := cleanLoop_normal false path.data.length path.data
      [] 0 le_rfl (by simp) (by simp)
    have hinit : rbuf false ([] ++ List.replicate 0 ['.', '.']) = [] := by simp [rbuf]
    have hinit2 : (rbuf false (List.replicate 0 ['.', '.'])).length = 0 := by simp [rbuf]
    rw [hinit, hinit2] at h3
    rw [h3]
    have hiff := rbuf_ne_nil_iff false _ (fun e he =>
        replicate_dotdot_ne_nil top1 k1 e he (fun x hx => (h1 x hx).1.1))
    by_cases hes : top1 ++ List.replicate k1 ['.', '.'] = []
    · have hnil := hiff.2 ⟨hes, rfl⟩
      rw [hnil]
      simp only [List.length_nil, if_true]
      exact ⟨top1, k1, h1, h2, by simp [hes]⟩
    · have hlen : (rbuf false (top1 ++ List.replicate k1 ['.', '.'])).length ≠ 0 := fun h =>
        hes (hiff.1 (List.length_eq_zero.1 h)).1
      rw [if_neg hlen]
      exact ⟨top1, k1, h1, h2, by simp [hes]⟩

theorem takeWhile_dropWhile_tl (l tl : List Char) (hl : '/' ∉ l)
    (htl : tl = [] ∨ tl.head? = some '/') :
    (l ++ tl).takeWhile (fun x => decide (x ≠ '/')) = l ∧
    (l ++ tl).dropWhile (fun x => decide (x ≠ '/')) = tl := by
  have hall : ∀ x ∈ l, (fun x => decide (x ≠ '/')) x = true := by
    intro x hx
    have : x ≠ '/' := fun h => hl (h ▸ hx)
    simpa using this
  cases tl with
  | nil =>
    rw [List.append_nil]
    exact ⟨List.takeWhile_eq_self_iff.2 hall, List.dropWhile_eq_nil_iff.2 hall⟩
  | cons d T =>
    rcases htl with h | h
    · cases h
    · simp only [List.head?_cons, Option.some.injEq] at h
      subst h
      exact takeWhile_dropWhile_stop _ l T '/' hall (by simp)

/-- The tail of the buffer below its last element is empty or begins with a separator. -/
theorem rbuf_below (rooted : Bool) (es : List (List Char)) :
    (if es = [] then rbuf rooted [] else '/' :: rbuf rooted es) = [] ∨
    (if es = [] then rbuf rooted [] else '/' :: rbuf rooted es).head? = some '/' := by
  by_cases h : es = []
  · cases rooted <;> simp [h, rbuf]
  · simp [h]

/-- The main loop of `Clean` pushes a valid name on a buffer of elements. -/
theorem cleanLoop_name_rbuf (rooted : Bool) (n : List Char) (es : List (List Char))
    (dotdot : Nat) (hes : ∀ e ∈ es, e ≠ [])
    (h0 : n ≠ []) (hs : '/' ∉ n) (h1 : n ≠ ['.']) (h2 : n ≠ ['.', '.']) :
    cleanLoop rooted n (rbuf rooted es) dotdot = rbuf rooted (n :: es) := by
  have hsep := rbuf_sep_iff rooted es hes
  rw [cleanLoop_name rooted n _ dotdot h0 hs h1 h2, rbuf_cons]
  by_cases he : es = []
  · rw [if_neg (fun h => hsep.1 h he), if_pos he, he]
  · rw [if_pos (hsep.2 he), if_neg he]

theorem withSlashes_head (fs : List (List Char)) (hfs : fs ≠ [])
    (hgood : ∀ e ∈ fs, e ≠ [] ∧ '/' ∉ e) :
    (withSlashes fs) ≠ [] ∧ (withSlashes fs).head? ≠ some '/' := by
  cases fs with
  | nil => exact absurd rfl hfs
  | cons e fs =>
    obtain ⟨hne, hs⟩ := hgood e (List.mem_cons_self _ _)
    cases e with
    | nil => exact absurd rfl hne
    | cons c e1 =>
      simp only [withSlashes, List.cons_append, ne_eq, reduceCtorEq, not_false_eq_true,
        List.head?_cons, Option.some.injEq, true_and]
      intro hc
      exact hs (hc ▸ List.mem_cons_self _ _)

theorem isCleaned_elems (rooted : Bool) (top : List (List Char)) (k : Nat) (C : String)
    (hC : IsCleaned rooted top k C) :
    ∀ e ∈ top ++ List.replicate k ['.', '.'], e ≠ [] ∧ '/' ∉ e := by
  intro e he
  rcases List.mem_append.1 he with h | h
  · exact ⟨(hC.1 e h).1.1, (hC.1 e h).1.2.1⟩
  · rw [List.eq_of_mem_replicate h]
    exact ⟨by simp, by decide⟩

/-- Cleaning the directory part of a cleaned path gives the path back: `Clean` is idempotent,
also when a separator closes the path. -/
theorem Clean_cleaned_dir (rooted : Bool) (top : List (List Char)) (k : Nat) (C X : String)
    (hC : IsCleaned rooted top k C)
    (hX : X.data = (rbuf rooted (top ++ List.replicate k ['.', '.'])).reverse ++
      (if top ++ List.replicate k ['.', '.'] = [] then [] else ['/'])) :
    Clean X = C := by
  have helems := isCleaned_elems rooted top k C hC
  obtain ⟨htop, hk, hdata⟩ := hC
  rw [rbuf_reverse_slash] at hX
  apply String.ext
  rw [hdata]
  unfold Clean
  by_cases hes : top ++ List.replicate k ['.', '.'] = []
  · cases rooted with
    | false =>
      have hX0 : X = "" := String.ext (by rw [hX, hes]; simp [rbuf, withSlashes])
      simp [hX0, hes]
    | true =>
      have hX1 : X.data = ['/'] := by rw [hX, hes]; simp [rbuf, withSlashes]
      have hne : X ≠ "" := fun h => by rw [h] at hX1; cases hX1
      rw [if_neg hne]
      simp only [hX1, List.head?_cons, decide_True, if_true, List.tail_cons]
      rw [cleanLoop]
      simp [hes, rbuf]
  · have hrev : (top ++ List.replicate k ['.', '.']).reverse ≠ [] := fun h =>
      hes (List.reverse_eq_nil_iff.1 h)
    obtain ⟨hwne, hwhead⟩ := withSlashes_head _ hrev (fun e he =>
      helems e (List.mem_reverse.1 he))
    have hthread := cleanLoop_cleaned rooted top k [] htop hk
    rw [List.append_nil] at hthread
    have hrbne : rbuf rooted (top ++ List.replicate k ['.', '.']) ≠ [] := by
      intro h
      exact hes ((rbuf_ne_nil_iff rooted _ (fun e he => (helems e he).1)).1 h).1
    have hlen : (rbuf rooted (top ++ List.replicate k ['.', '.'])).length ≠ 0 := fun h =>
      hrbne (List.length_eq_zero.1 h)
    cases rooted with
    | false =>
      have hX1 : X.data = withSlashes (top ++ List.replicate k ['.', '.']).reverse := by
        rw [hX]; simp [rbuf]
      have hne : X ≠ "" := fun h => by rw [h] at hX1; exact hwne hX1.symm
      rw [if_neg hne]
      have hh : ¬ X.data.head? = some '/' := by rw [hX1]; exact hwhead
      simp only [hh, decide_False, if_false, Bool.false_eq_true]
      rw [hX1]
      have hi : rbuf false [] = [] := by simp [rbuf]
      rw [hi] at hthread
      simp only [List.length_nil] at hthread
      rw [hthread, cleanLoop, if_neg hlen]
      simp [hes]
    | true =>
      have hX1 : X.data = '/' :: withSlashes (top ++ List.replicate k ['.', '.']).reverse := by
        rw [hX]; simp [rbuf]
      have hne : X ≠ "" := fun h => by rw [h] at hX1; cases hX1
      rw [if_neg hne]
      simp only [hX1, List.head?_cons, decide_True, if_true, List.tail_cons]
      have hi : rbuf true [] = ['/'] := by simp [rbuf]
      rw [hi] at hthread
      simp only [List.length_singleton] at hthread
      rw [hthread, cleanLoop, if_neg hlen]
      simp

/-- Joining a cleaned path and a valid name pushes the name on the elements of the path. -/
theorem Join_cleaned (rooted : Bool) (top : List (List Char)) (k : Nat) (C N : String)
    (hC : IsCleaned rooted top k C) (hN : validName N) :
    (Join C N).data =
      (rbuf rooted (N.data :: (top ++ List.replicate k ['.', '.']))).reverse := by
  have helems := isCleaned_elems rooted top k C hC
  have hes : ∀ e ∈ top ++ List.replicate k ['.', '.'], e ≠ [] := fun e he => (helems e he).1
  obtain ⟨htop, hk, hdata⟩ := hC
  obtain ⟨hne, hs, hd, hdd⟩ := hN
  have h0 : N.data ≠ [] := fun h => hne (String.ext h)
  have h1 : N.data ≠ ['.'] := fun h => hd (String.ext h)
  have h2 : N.data ≠ ['.', '.'] := fun h => hdd (String.ext h)
  have hpush : ∀ dotdot, cleanLoop rooted N.data
      (rbuf rooted (top ++ List.replicate k ['.', '.'])) dotdot =
      rbuf rooted (N.data :: (top ++ List.replicate k ['.', '.'])) := fun dotdot =>
    cleanLoop_name_rbuf rooted N.data _ dotdot hes h0 hs h1 h2
  have hlen : (rbuf rooted (N.data :: (top ++ List.replicate k ['.', '.']))).length ≠ 0 := by
    have := rbuf_length_lt_cons rooted N.data (top ++ List.replicate k ['.', '.']) h0
    omega
  have hCne : C ≠ "" := by
    intro h
    have hd0 : C.data = [] := by rw [h]
    rw [hd0] at hdata
    split_ifs at hdata with hc
    have : rbuf rooted (top ++ List.replicate k ['.', '.']) = [] :=
      List.reverse_eq_nil_iff.1 hdata.symm
    exact hc ((rbuf_ne_nil_iff rooted _ hes).1 this)
  have hpath : (C ++ "/" ++ N).data = C.data ++ '/' :: N.data := by
    simp [String.data_append]
  have hpne : C ++ "/" ++ N ≠ "" := by
    intro h
    rw [h] at hpath
    have := congrArg List.length hpath
    simp at this
    omega
  unfold Join
  rw [if_pos hCne]
  unfold Clean
  rw [if_neg hpne]
  simp only [hpath]
  by_cases hnil : top ++ List.replicate k ['.', '.'] = []
  · cases rooted with
    | false =>
      have hCd : C.data = ['.'] := by rw [hdata]; simp [hnil]
      have hp := hpush 0
      rw [hnil] at hp hlen ⊢
      have hi : rbuf false [] = [] := by simp [rbuf]
      rw [hi] at hp
      have hstep : cleanLoop false ('.' :: '/' :: N.data) [] 0 = rbuf false [N.data] := by
        rw [cleanLoop, if_neg (by decide), if_pos (by simp), cleanLoop_sep, hp]
      simp only [hCd, List.cons_append, List.nil_append, List.head?_cons, Option.some.injEq,
        reduceCtorEq, decide_False, Bool.false_eq_true, if_false]
      have hdec : decide ('.' = '/') = false := by decide
      simp only [hdec, Bool.false_eq_true, if_false, hstep, hlen]
    | true =>
      have hCd : C.data = ['/'] := by rw [hdata]; simp [hnil, rbuf]
      have hp := hpush 1
      rw [hnil] at hp hlen ⊢
      have hi : rbuf true [] = ['/'] := by simp [rbuf]
      rw [hi] at hp
      have hstep : cleanLoop true ('/' :: N.data) ['/'] 1 = rbuf true [N.data] := by
        rw [cleanLoop_sep, hp]
      simp only [hCd, List.cons_append, List.nil_append, List.head?_cons, decide_True,
        if_true, List.tail_cons, hstep, hlen, if_false]
  · have hCd : C.data ++ '/' :: N.data =
        rbuf rooted [] ++ (withSlashes (top ++ List.replicate k ['.', '.']).reverse ++
          N.data) := by
      have h := rbuf_reverse_slash rooted (top ++ List.replicate k ['.', '.'])
      rw [if_neg hnil] at h
      rw [hdata, if_neg (fun h => hnil h.1), ← List.append_assoc, ← h]
      simp
    have hrev : (top ++ List.replicate k ['.', '.']).reverse ≠ [] := fun h =>
      hnil (List.reverse_eq_nil_iff.1 h)
    obtain ⟨hwne, hwhead⟩ := withSlashes_head _ hrev (fun e he =>
      helems e (List.mem_reverse.1 he))
    have hthread := cleanLoop_cleaned rooted top k N.data htop hk
    rw [hpush] at hthread
    rw [hCd]
    cases rooted with
    | false =>
      have hi : rbuf false [] = [] := by simp [rbuf]
      rw [hi] at hthread ⊢
      simp only [List.length_nil] at hthread
      have hh : ¬ (withSlashes (top ++ List.replicate k ['.', '.']).reverse ++
          N.data).head? = some '/' := by
        cases hw : withSlashes (top ++ List.replicate k ['.', '.']).reverse with
        | nil => exact absurd hw hwne
        | cons c t =>
          rw [hw] at hwhead
          simpa using hwhead
      simp only [List.nil_append, hh, decide_False, Bool.false_eq_true, if_false, hthread, hlen]
    | true =>
      have hi : rbuf true [] = ['/'] := by simp [rbuf]
      rw [hi] at hthread ⊢
      simp only [List.length_singleton] at hthread
      simp only [List.cons_append, List.nil_append, List.head?_cons, decide_True, if_true,
        List.tail_cons, hthread, hlen, if_false]

/-- The directory of the join of a cleaned path and a valid name is the cleaned path. -/
theorem Dir_Join_cleaned (rooted : Bool) (top : List (List Char)) (k : Nat) (C N : String)
    (hC : IsCleaned rooted top k C) (hN : validName N) : Dir (Join C N) = C := by
  have hj := Join_cleaned rooted top k C N hC hN
  have hs' : '/' ∉ N.data.reverse := by simpa using hN.2.1
  unfold Dir
  apply Clean_cleaned_dir rooted top k C _ hC
  rw [hj, List.reverse_reverse, rbuf_cons,
    (takeWhile_dropWhile_tl _ _ hs' (rbuf_below rooted _)).2]
  by_cases hnil : top ++ List.replicate k ['.', '.'] = []
  · rw [if_pos hnil, if_pos hnil, hnil]
    simp
  · rw [if_neg hnil, if_neg hnil]
    simp

/-- The base name of the join of a cleaned path and a valid name is the name. -/
theorem Base_Join_cleaned (rooted : Bool) (top : List (List Char)) (k : Nat) (C N : String)
    (hC : IsCleaned rooted top k C) (hN : validName N) : Base (Join C N) = N := by
  have hj := Join_cleaned rooted top k C N hC hN
  have hs' : '/' ∉ N.data.reverse := by simpa using hN.2.1
  have h0 : N.data ≠ [] := fun h => hN.1 (String.ext h)
  have hr0 : N.data.reverse ≠ [] := fun h => h0 (List.reverse_eq_nil_iff.1 h)
  have hne : Join C N ≠ "" := by
    intro h
    rw [h] at hj
    have := congrArg List.length hj
    have hlt := rbuf_length_lt_cons rooted N.data (top ++ List.replicate k ['.', '.']) h0
    simp only [String.data, List.length_nil, List.length_reverse] at this
    omega
  unfold Base
  rw [if_neg hne]
  simp only [hj, List.reverse_reverse]
  rw [rbuf_cons]
  have hstrip : (N.data.reverse ++ if top ++ List.replicate k ['.', '.'] = [] then
        rbuf rooted [] else '/' :: rbuf rooted (top ++ List.replicate k ['.', '.'])).dropWhile
        (fun x => decide (x = '/')) =
      (N.data.reverse ++ if top ++ List.replicate k ['.', '.'] = [] then
        rbuf rooted [] else '/' :: rbuf rooted (top ++ List.replicate k ['.', '.'])) := by
    cases hr : N.data.reverse with
    | nil => exact absurd hr hr0
    | cons c t =>
      have hc : c ≠ '/' := by
        intro h
        apply hs'
        rw [hr, h]
        exact List.mem_cons_self _ _
      simp [List.dropWhile, hc]
  rw [hstrip, (takeWhile_dropWhile_tl _ _ hs' (rbuf_below rooted _)).1, if_neg hr0,
    List.reverse_reverse]

/-! ## Base name and extension -/

theorem extLoop_cons (c : Char) (rest acc : List Char) :
    extLoop (c :: rest) acc =
      if c = '/' then [] else if c = '.' then c :: acc else extLoop rest (c :: acc) := rfl

theorem extLoop_suffix (l : List Char) : ∀ acc : List Char, extLoop l acc <:+ l.reverse ++ acc := by
  induction l with
  | nil => intro acc; exact List.nil_suffix
  | cons c l ih =>
    intro acc
    simp only [extLoop]
    split_ifs with h1 h2
    · exact List.nil_suffix
    · rw [List.reverse_cons, List.append_assoc]
      exact List.suffix_append _ _
    · have := ih (c :: acc)
      rw [List.reverse_cons, List.append_assoc]
      exact this

theorem extLoop_no_dot (l : List Char) (hd : '.' ∉ l) (hs : '/' ∉ l) :
    ∀ acc : List Char, extLoop l acc = [] := by
  induction l with
  | nil => intro acc; rfl
  | cons c l ih =>
    intro acc
    simp only [List.mem_cons, not_or] at hd hs
    have c1 : ¬c = '/' := fun h => hs.1 h.symm
    have c2 : ¬c = '.' := fun h => hd.1 h.symm
    rw [extLoop_cons, if_neg c1, if_neg c2]
    exact ih hd.2 hs.2 _

theorem extLoop_dot (s rest : List Char) (hd : '.' ∉ s) (hs : '/' ∉ s) :
    ∀ acc : List Char, extLoop (s ++ '.' :: rest) acc = '.' :: (s.reverse ++ acc) := by
  induction s with
  | nil => intro acc; simp [extLoop]
  | cons c s ih =>
    intro acc
    simp only [List.mem_cons, not_or] at hd hs
    have c1 : ¬c = '/' := fun h => hs.1 h.symm
    have c2 : ¬c = '.' := fun h => hd.1 h.symm
    rw [List.cons_append, extLoop_cons, if_neg c1, if_neg c2, ih hd.2 hs.2]
    simp

/-- The extension of a name without separator: empty when the name has no dot, and otherwise
the part of the name from its last dot on. -/
theorem extLoop_cases (l : List Char) (hs : '/' ∉ l) :
    ('.' ∉ l ∧ extLoop l [] = []) ∨
    (∃ s rest, l = s ++ '.' :: rest ∧ '.' ∉ s ∧ extLoop l [] = '.' :: s.reverse) := by
  induction l with
  | nil => left; exact ⟨by simp, rfl⟩
  | cons c l ih =>
    simp only [List.mem_cons, not_or] at hs
    by_cases hc : c = '.'
    · right
      exact ⟨[], l, by simp [hc], by simp, by simp [extLoop, hc]⟩
    · rcases ih hs.2 with ⟨h1, _⟩ | ⟨s, rest, h1, h2, _⟩
      · left
        refine ⟨?_, extLoop_no_dot _ ?_ ?_ _⟩
        · simp only [List.mem_cons, not_or]; exact ⟨fun h => hc h.symm, h1⟩
        · simp only [List.mem_cons, not_or]; exact ⟨fun h => hc h.symm, h1⟩
        · simp only [List.mem_cons, not_or]; exact hs
      · right
        refine ⟨c :: s, rest, by simp [h1], ?_, ?_⟩
        · simp only [List.mem_cons, not_or]; exact ⟨fun h => hc h.symm, h2⟩
        · have hss : '/' ∉ c :: s := by
            intro hm
            rcases List.mem_cons.1 hm with h | h
            · exact hs.1 h
            · exact hs.2 (by rw [h1]; exact List.mem_append_left _ h)
          have hds : '.' ∉ c :: s := by
            simp only [List.mem_cons, not_or]; exact ⟨fun h => hc h.symm, h2⟩
          have := extLoop_dot (c :: s) rest hds hss []
          rw [h1]
          simpa using this

theorem dropWhile_not_sep_head (l : List Char) :
    l.dropWhile (fun x => decide (x ≠ '/')) = [] ∨
    (l.dropWhile (fun x => decide (x ≠ '/'))).head? = some '/' := by
  induction l with
  | nil => left; rfl
  | cons c l ih =>
    by_cases hc : c = '/'
    · right; simp [List.dropWhile, hc]
    · simpa [List.dropWhile_cons, hc] using ih

theorem takeWhile_not_sep (l : List Char) : '/' ∉ l.takeWhile (fun x => decide (x ≠ '/')) := by
  intro h
  have := List.mem_takeWhile_imp h
  simp at this

/-- A path that is not empty and does not end in a separator: its base name is its last
element, which is not empty and has no separator, and its extension is the extension of the
base name. -/
theorem Base_of_no_trailing_sep (path : String) (hne : path ≠ "")
    (hlast : path.data.reverse.head? ≠ some '/') :
    (Base path).data = (path.data.reverse.takeWhile (fun x => decide (x ≠ '/'))).reverse ∧
    (Base path).data ≠ [] ∧ '/' ∉ (Base path).data ∧ Ext path = Ext (Base path) := by
  have hr : path.data.reverse ≠ [] := fun h =>
    hne (String.ext (List.reverse_eq_nil_iff.1 h))
  have hstrip : path.data.reverse.dropWhile (fun x => decide (x = '/')) = path.data.reverse := by
    cases hrev : path.data.reverse with
    | nil => exact absurd hrev hr
    | cons c t =>
      rw [hrev] at hlast
      have hc : c ≠ '/' := fun h => hlast (by rw [h]; rfl)
      simp [List.dropWhile, hc]
  have htake : path.data.reverse.takeWhile (fun x => decide (x ≠ '/')) ≠ [] := by
    cases hrev : path.data.reverse with
    | nil => exact absurd hrev hr
    | cons c t =>
      rw [hrev] at hlast
      have hc : c ≠ '/' := fun h => hlast (by rw [h]; rfl)
      simp [List.takeWhile, hc]
  have hB : (Base path).data =
      (path.data.reverse.takeWhile (fun x => decide (x ≠ '/'))).reverse := by
    unfold Base
    rw [if_neg hne]
    simp only [hstrip, if_neg htake]
  refine ⟨hB, ?_, ?_, ?_⟩
  · rw [hB]
    exact fun h => htake (List.reverse_eq_nil_iff.1 h)
  · rw [hB]
    intro h
    exact takeWhile_not_sep _ (List.mem_reverse.1 h)
  · have hsplit := List.takeWhile_append_dropWhile (fun x => decide (x ≠ '/'))
      path.data.reverse
    have h1 : Ext path = ⟨extLoop (path.data.reverse.takeWhile (fun x => decide (x ≠ '/')) ++
        path.data.reverse.dropWhile (fun x => decide (x ≠ '/'))) []⟩ := by
      rw [hsplit]; rfl
    rw [h1, extLoop_append _ _ (takeWhile_not_sep _) (dropWhile_not_sep_head _)]
    simp only [Ext, hB, List.reverse_reverse]

/-- The extension is a suffix of the base name, for every path. -/
theorem Ext_suffix_Base (path : String) : (Ext path).data <:+ (Base path).data := by
  by_cases hne : path = ""
  · subst hne
    exact List.nil_suffix
  by_cases hlast : path.data.reverse.head? = some '/'
  · have : Ext path = "" := by
      cases hrev : path.data.reverse with
      | nil => simp [hrev] at hlast
      | cons c t =>
        rw [hrev] at hlast
        simp only [List.head?_cons, Option.some.injEq] at hlast
        simp [Ext, hrev, extLoop, hlast]
    rw [this]
    exact List.nil_suffix
  · obtain ⟨hB, _, _, hE⟩ := Base_of_no_trailing_sep path hne hlast
    rw [hE]
    have := extLoop_suffix (Base path).data.reverse []
    simpa [Ext] using this

/-! ## The temporary path -/

/-- The slice `base[:len(base)-len(ext)]` is within bounds and cuts the extension off when the
extension is a suffix of the base name. -/
theorem slice_of_suffix (base ext : String) (pre : List Char)
    (h : base.data = pre ++ ext.data) :
    ext.utf8ByteSize ≤ base.utf8ByteSize ∧
    base.extract 0 ⟨base.utf8ByteSize - ext.utf8ByteSize⟩ = ⟨pre⟩ := by
  have hb : base = ⟨[] ++ pre ++ ext.data⟩ := String.ext (by simp [h])
  have he : ext = ⟨ext.data⟩ := rfl
  have hsize : base.utf8ByteSize = String.utf8Len pre + ext.utf8ByteSize := by
    rw [hb, he]
    simp [String.utf8ByteSize_mk, String.utf8Len_append]
  refine ⟨by omega, ?_⟩
  have hpos : base.utf8ByteSize - ext.utf8ByteSize = String.utf8Len [] + String.utf8Len pre := by
    simp only [String.utf8Len_nil]
    omega
  rw [hpos]
  have hzero : (0 : String.Pos) = ⟨String.utf8Len []⟩ := rfl
  rw [hzero, hb]
  exact String.extract_of_valid [] pre ext.data

/-- Inserting "_temp" before the extension of a name without separator keeps the extension. -/
theorem extLoop_insert_temp (b pre : List Char) (hs : '/' ∉ b)
    (h : b = pre ++ extLoop b.reverse []) :
    extLoop (pre ++ "_temp".data ++ extLoop b.reverse []).reverse [] = extLoop b.reverse [] := by
  have hs' : '/' ∉ b.reverse := by simpa using hs
  rcases extLoop_cases b.reverse hs' with ⟨hd, he⟩ | ⟨s, rest, h1, h2, he⟩
  · rw [he] at h ⊢
    rw [List.append_nil] at h ⊢
    subst h
    apply extLoop_no_dot
    · intro hm
      rcases List.mem_reverse.1 hm |> List.mem_append.1 with h | h
      · exact hd (List.mem_reverse.2 h)
      · revert h; decide
    · intro hm
      rcases List.mem_reverse.1 hm |> List.mem_append.1 with h | h
      · exact hs h
      · revert h; decide
  · rw [he]
    have hss : '/' ∉ s := fun hm => hs' (by rw [h1]; exact List.mem_append_left _ hm)
    have hrev : (pre ++ "_temp".data ++ '.' :: s.reverse).reverse =
        s ++ '.' :: ("_temp".data.reverse ++ pre.reverse) := by
      simp
    rw [hrev, extLoop_dot s _ h2 hss []]
    simp

theorem temp_name_valid (pre ext : List Char) (hp : '/' ∉ pre) (he : '/' ∉ ext) :
    validName ⟨pre ++ "_temp".data ++ ext⟩ := by
  have hmem : '_' ∈ pre ++ "_temp".data ++ ext :=
    List.mem_append_left _ (List.mem_append_right _ (by decide))
  refine ⟨?_, ?_, ?_, ?_⟩
  · intro h
    have := congrArg String.data h
    simp only at this
    rw [this] at hmem
    revert hmem; decide
  · intro hm
    rcases List.mem_append.1 hm with h | h
    · rcases List.mem_append.1 h with h | h
      · exact hp h
      · revert h; decide
    · exact he h
  · intro h
    have := congrArg String.data h
    simp only at this
    rw [this] at hmem
    revert hmem; decide
  · intro h
    have := congrArg String.data h
    simp only at this
    rw [this] at hmem
    revert hmem; decide

/-- The temporary path of a path whose base name has no separator: the directory of the path
joined with the base name in which "_temp" stands before the extension. -/
theorem tempPathOf_of_base (path : String) (hbs : '/' ∉ (Base path).data) :
    ∃ (pre : List Char) (N : String),
      (Base path).data = pre ++ (Ext path).data ∧
      N.data = pre ++ "_temp".data ++ (Ext path).data ∧
      validName N ∧
      tempPathOf path = some (Join (Dir path) N) ∧
      Dir (Join (Dir path) N) = Dir path ∧
      Base (Join (Dir path) N) = N ∧
      Ext (Join (Dir path) N) = Ext N ∧
      Join (Dir path) N ≠ path := by
  obtain ⟨pre, hpre⟩ := Ext_suffix_Base path
  have hpre' : (Base path).data = pre ++ (Ext path).data := hpre.symm
  obtain ⟨hguard, hname⟩ := slice_of_suffix (Base path) (Ext path) pre hpre'
  have hp : '/' ∉ pre := fun h => hbs (by rw [hpre']; exact List.mem_append_left _ h)
  have he : '/' ∉ (Ext path).data := fun h =>
    hbs (by rw [hpre']; exact List.mem_append_right _ h)
  have hN := temp_name_valid pre (Ext path).data hp he
  obtain ⟨top, k, hC⟩ := Clean_isCleaned
    ⟨(path.data.reverse.dropWhile (fun x => decide (x ≠ '/'))).reverse⟩
  have hbase := Base_Join_cleaned _ top k (Dir path) _ hC hN
  refine ⟨pre, ⟨pre ++ "_temp".data ++ (Ext path).data⟩, hpre', rfl, hN, ?_,
    Dir_Join_cleaned _ top k (Dir path) _ hC hN, hbase, Ext_Join _ _ hN, ?_⟩
  · have hN_eq : (⟨pre⟩ : String) ++ "_temp" ++ Ext path =
        ⟨pre ++ "_temp".data ++ (Ext path).data⟩ :=
      String.ext (by simp [String.data_append])
    unfold tempPathOf
    simp only [hguard, if_true, hname, hN_eq]
  · intro h
    rw [h] at hbase
    have h1 : (Base path).data = pre ++ "_temp".data ++ (Ext path).data := by rw [hbase]
    rw [hpre'] at h1
    have h2 := congrArg List.length h1
    have h5 : "_temp".data.length = 5 := by decide
    rw [List.length_append, List.length_append, List.length_append, h5] at h2
    omega

theorem cleanLoop_slashes (l : List Char) (hall : ∀ c ∈ l, c = '/') (rout : List Char)
    (dotdot : Nat) : cleanLoop true l rout dotdot = rout := by
  induction l with
  | nil => rw [cleanLoop]
  | cons c l ih =>
    have hc := hall c (List.mem_cons_self _ _)
    subst hc
    rw [cleanLoop_sep]
    exact ih (fun x hx => hall x (List.mem_cons_of_mem _ hx))

/-- The temporary path of a path made of separators only is "/_temp", in the root
directory. -/
theorem tempPathOf_slashes (path : String) (hne : path ≠ "") (hall : ∀ c ∈ path.data, c = '/') :
    tempPathOf path = some "/_temp" ∧ Dir path = "/" ∧ Dir "/_temp" = "/" ∧
      "/_temp" ≠ path ∧ Base path = "/" := by
  have hd : path.data ≠ [] := fun h => hne (String.ext h)
  have hrall : ∀ c ∈ path.data.reverse, c = '/' := fun c hc => hall c (List.mem_reverse.1 hc)
  obtain ⟨t, ht⟩ : ∃ t, path.data.reverse = '/' :: t := by
    cases hr : path.data.reverse with
    | nil => exact absurd (List.reverse_eq_nil_iff.1 hr) hd
    | cons c t =>
      have := hrall c (by rw [hr]; exact List.mem_cons_self _ _)
      exact ⟨t, by rw [this]⟩
  obtain ⟨u, hu⟩ : ∃ u, path.data = '/' :: u := by
    cases hp : path.data with
    | nil => exact absurd hp hd
    | cons c u =>
      have := hall c (by rw [hp]; exact List.mem_cons_self _ _)
      exact ⟨u, by rw [this]⟩
  have hBase : Base path = "/" := by
    unfold Base
    rw [if_neg hne]
    have : path.data.reverse.dropWhile (fun x => decide (x = '/')) = [] := by
      rw [List.dropWhile_eq_nil_iff]
      intro x hx
      simpa using hrall x hx
    simp [this]
  have hExt : Ext path = "" := by
    simp [Ext, ht, extLoop]
  have hClean : Clean path = "/" := by
    unfold Clean
    rw [if_neg hne]
    simp only [hu, List.head?_cons, decide_True, if_true, List.tail_cons]
    rw [cleanLoop_slashes u (fun c hc => hall c (by rw [hu]; exact List.mem_cons_of_mem _ hc))]
    rfl
  have hDir : Dir path = "/" := by
    unfold Dir
    have : (path.data.reverse.dropWhile (fun x => decide (x ≠ '/'))).reverse = path.data := by
      rw [ht]
      simp only [List.dropWhile, ne_eq, not_true_eq_false, decide_False]
      rw [← ht, List.reverse_reverse]
    rw [this]
    exact hClean
  have hDir2 : Dir "/_temp" = "/" := by
    simp [Dir, Clean, cleanLoop, List.dropWhile]
  have hJoin : Join "/" ("/" ++ "_temp" ++ "") = "/_temp" := by
    simp [Join, Clean, cleanLoop]
  refine ⟨?_, hDir, hDir2, ?_, hBase⟩
  · unfold tempPathOf
    simp only [hBase, hExt, hDir]
    have hname : String.extract "/" 0 ⟨"/".utf8ByteSize - "".utf8ByteSize⟩ = "/" := by decide
    have hguard : "".utf8ByteSize ≤ "/".utf8ByteSize := by decide
    simp only [hguard, if_true, hname, hJoin]
  · intro h
    have hm : '_' ∈ path.data := by rw [← h]; decide
    have := hall '_' hm
    revert this; decide

theorem dropWhile_sep_head (l : List Char) :
    l.dropWhile (fun x => decide (x = '/')) = [] ∨
    ∃ c t, l.dropWhile (fun x => decide (x = '/')) = c :: t ∧ c ≠ '/' := by
  induction l with
  | nil => left; rfl
  | cons c l ih =>
    by_cases hc : c = '/'
    · simpa [List.dropWhile_cons, hc] using ih
    · right
      exact ⟨c, l, by simp [List.dropWhile_cons, hc], hc⟩

/-- The base name of a path has no separator, unless the path is made of separators only. -/
theorem Base_cases (path : String) :
    (path ≠ "" ∧ ∀ c ∈ path.data, c = '/') ∨ '/' ∉ (Base path).data := by
  by_cases hne : path = ""
  · right
    subst hne
    decide
  rcases dropWhile_sep_head path.data.reverse with hstr | ⟨c, t, hstr, hc⟩
  · left
    refine ⟨hne, fun c hc => ?_⟩
    have := List.dropWhile_eq_nil_iff.1 hstr c (List.mem_reverse.2 hc)
    simpa using this
  · right
    unfold Base
    rw [if_neg hne]
    simp only [hstr]
    have hlast : (c :: t).takeWhile (fun x => decide (x ≠ '/')) ≠ [] := by
      simp [List.takeWhile_cons, hc]
    rw [if_neg hlast]
    intro hm
    exact takeWhile_not_sep _ (List.mem_reverse.1 hm)

/-- The temporary path is computed for every path, lies in the directory of the path and
differs from the path. -/
theorem tempPathOf_sibling (path : String) :
    ∃ t : String, tempPathOf path = some t ∧ Dir t = Dir path ∧ t ≠ path := by
  rcases Base_cases path with ⟨hne, hall⟩ | hbs
  · obtain ⟨h1, h2, h3, h4, _⟩ := tempPathOf_slashes path hne hall
    exact ⟨"/_temp", h1, by rw [h3, h2], h4⟩
  · obtain ⟨pre, N, _, _, _, h1, h2, _, _, h3⟩ := tempPathOf_of_base path hbs
    exact ⟨_, h1, h2, h3⟩

/-! ## Absolute and relative result paths -/

theorem IsAbs_iff (p : String) : IsAbs p = true ↔ p.data.head? = some '/' := by
  rw [IsAbs, HasPrefix_iff]
  constructor
  · rintro ⟨t, ht⟩
    rw [← ht]; rfl
  · intro h
    cases hp : p.data with
    | nil => simp [hp] at h
    | cons c t =>
      rw [hp] at h
      simp only [List.head?_cons, Option.some.injEq] at h
      exact ⟨t, by rw [h]; rfl⟩

/-- A cleaned path begins with a separator exactly when it is rooted. -/
theorem isCleaned_head (rooted : Bool) (top : List (List Char)) (k : Nat) (C : String)
    (hC : IsCleaned rooted top k C) : C.data.head? = some '/' ↔ rooted = true := by
  have helems := isCleaned_elems rooted top k C hC
  obtain ⟨_, _, hdata⟩ := hC
  have hsl := rbuf_reverse_slash rooted (top ++ List.replicate k ['.', '.'])
  by_cases hnil : top ++ List.replicate k ['.', '.'] = []
  · cases rooted <;> simp [hdata, hnil, rbuf]
  · have hrev : (top ++ List.replicate k ['.', '.']).reverse ≠ [] := fun h =>
      hnil (List.reverse_eq_nil_iff.1 h)
    obtain ⟨hwne, hwhead⟩ := withSlashes_head _ hrev (fun e he =>
      helems e (List.mem_reverse.1 he))
    have hne : (rbuf rooted (top ++ List.replicate k ['.', '.'])).reverse ≠ [] := by
      intro h
      have := (rbuf_ne_nil_iff rooted _ (fun e he => (helems e he).1)).1
        (List.reverse_eq_nil_iff.1 h)
      exact hnil this.1
    rw [if_neg hnil] at hsl
    have hhead : (rbuf rooted (top ++ List.replicate k ['.', '.'])).reverse.head? =
        (rbuf rooted [] ++ withSlashes (top ++ List.replicate k ['.', '.']).reverse).head? := by
      rw [← hsl]
      cases hr : (rbuf rooted (top ++ List.replicate k ['.', '.'])).reverse with
      | nil => exact absurd hr hne
      | cons c t => rfl
    rw [hdata, if_neg (fun h => hnil h.1), hhead]
    cases rooted with
    | true => simp [rbuf]
    | false =>
      simp only [rbuf, Bool.false_eq_true, if_false, List.nil_append, iff_false]
      exact hwhead

theorem isCleaned_ne_empty (rooted : Bool) (top : List (List Char)) (k : Nat) (C : String)
    (hC : IsCleaned rooted top k C) : C ≠ "" := by
  have helems := isCleaned_elems rooted top k C hC
  obtain ⟨_, _, hdata⟩ := hC
  intro h
  have hd0 : C.data = [] := by rw [h]
  rw [hd0] at hdata
  split_ifs at hdata with hc
  have : rbuf rooted (top ++ List.replicate k ['.', '.']) = [] :=
    List.reverse_eq_nil_iff.1 hdata.symm
  exact hc ((rbuf_ne_nil_iff rooted _ (fun e he => (helems e he).1)).1 this)

/-- Joining onto a non-empty path keeps it absolute or relative, and gives a non-empty
path. -/
theorem IsAbs_Join (a b : String) (ha : a ≠ "") :
    IsAbs (Join a b) = IsAbs a ∧ Join a b ≠ "" := by
  obtain ⟨top, k, hC⟩ := Clean_isCleaned (a ++ "/" ++ b)
  have hJ : Join a b = Clean (a ++ "/" ++ b) := by
    unfold Join
    rw [if_pos ha]
  have hhead : (a ++ "/" ++ b).data.head? = a.data.head? := by
    cases hd : a.data with
    | nil => exact absurd (String.ext hd) ha
    | cons c t => simp [String.data_append, hd]
  rw [hJ]
  refine ⟨?_, isCleaned_ne_empty _ top k _ hC⟩
  have h1 := isCleaned_head _ top k _ hC
  rw [hhead] at h1
  rw [Bool.eq_iff_iff, IsAbs_iff, IsAbs_iff, h1]
  simp

/-- A successful Download returns the result of the scan of the listing of the destination
directory. -/
theorem Download_ok (caseTable : Char → Char) (env : Env) (g : Grabber)
    (mediaUrl name : String) (rs : List FileResult)
    (hok : g.Download caseTable env mediaUrl name = Except.ok rs) :
    ∃ files : List DirEntry, env.readDir (Join g.options.BaseDir name) = Except.ok files ∧
      rs = files.foldl (scanFile caseTable (Join g.options.BaseDir name)) [] := by
  unfold Grabber.Download at hok
  simp only [] at hok
  split at hok
  · cases hok
  · split at hok
    · cases hok
    · split_ifs at hok
      split at hok
      · cases hok
      · rename_i files hread
        split_ifs at hok with hlen
        simp only [Except.ok.injEq] at hok
        exact ⟨files, hread, hok.symm⟩

/-- C11, as stated, fails: with the default base directory "media/" the result of a
successful Download carries the relative path "media/1_2_3/media.mp4". -/
theorem Download_relative_path :
    New.Download idTable (successEnv [⟨"media.mp4", false⟩]) "https://youtu.be/dQw4w9WgXcQ"
        "1_2_3" =
      Except.ok
        [{ Name := "media.mp4", Path := "media/1_2_3/media.mp4", Ext := ".mp4",
           MediaType := MediaType.Video }] ∧
    IsAbs "media/1_2_3/media.mp4" = false := by
  refine ⟨?_, by decide⟩
  have hj : Join "media/" "1_2_3" = "media/1_2_3" := by simp [Join, Clean, cleanLoop]
  have hj2 : Join "media/1_2_3" "media.mp4" = "media/1_2_3/media.mp4" := by
    simp [Join, Clean, cleanLoop]
  have he : ToLower idTable (Ext "media/1_2_3/media.mp4") = ".mp4" := by decide
  have hs : HasSuffix "media.mp4" ".part" = false := by decide
  have hf : findFileType ".mp4" = MediaType.Video := by decide
  simp [Grabber.Download, New, defaultOptions, successEnv, hj, hj2, scanFile, he, hs, hf]

/-- C11, amended: every FileResult returned by Download carries in its Path field the join of
the destination directory join(BaseDir, name) and the name of a listed entry; for a non-empty
base directory this path is absolute if and only if the base directory is absolute, so it is
relative for the default base directory "media/". -/
theorem Download_path (caseTable : Char → Char) (env : Env) (g : Grabber)
    (mediaUrl name : String) (rs : List FileResult)
    (hok : g.Download caseTable env mediaUrl name = Except.ok rs) :
    ∀ r ∈ rs, r.Path = Join (Join g.options.BaseDir name) r.Name ∧
      (g.options.BaseDir ≠ "" → IsAbs r.Path = IsAbs g.options.BaseDir) ∧
      (g.options.BaseDir = "media/" → IsAbs r.Path = false) := by
  obtain ⟨files, _, hrs⟩ := Download_ok caseTable env g mediaUrl name rs hok
  intro r hr
  rw [hrs, foldl_scanFile, List.nil_append] at hr
  obtain ⟨f, _, hf⟩ := List.mem_map.1 hr
  have hpath : r.Path = Join (Join g.options.BaseDir name) r.Name := by rw [← hf]
  have habs : g.options.BaseDir ≠ "" → IsAbs r.Path = IsAbs g.options.BaseDir := by
    intro hb
    obtain ⟨h1, h2⟩ := IsAbs_Join g.options.BaseDir name hb
    rw [hpath, (IsAbs_Join _ r.Name h2).1, h1]
  refine ⟨hpath, habs, fun hb => ?_⟩
  rw [habs (by rw [hb]; decide), hb]
  decide

theorem Download_path_witness :
    (⟨"media.mp4", "media/1_2_3/media.mp4", ".mp4", MediaType.Video⟩ : FileResult).Path =
        Join (Join New.options.BaseDir "1_2_3") "media.mp4" ∧
      IsAbs "media/1_2_3/media.mp4" = IsAbs New.options.BaseDir ∧
      IsAbs "media/1_2_3/media.mp4" = false :=
  have h := Download_path idTable (successEnv [⟨"media.mp4", false⟩]) New
    "https://youtu.be/dQw4w9WgXcQ" "1_2_3"
    [⟨"media.mp4", "media/1_2_3/media.mp4", ".mp4", MediaType.Video⟩] (by
      have hj : Join "media/" "1_2_3" = "media/1_2_3" := by simp [Join, Clean, cleanLoop]
      have hj2 : Join "media/1_2_3" "media.mp4" = "media/1_2_3/media.mp4" := by
        simp [Join, Clean, cleanLoop]
      have he : ToLower idTable (Ext "media/1_2_3/media.mp4") = ".mp4" := by decide
      have hs : HasSuffix "media.mp4" ".part" = false := by decide
      have hf : findFileType ".mp4" = MediaType.Video := by decide
      simp [Grabber.Download, New, defaultOptions, successEnv, hj, hj2, scanFile, he, hs, hf])
    ⟨"media.mp4", "media/1_2_3/media.mp4", ".mp4", MediaType.Video⟩
    (List.mem_singleton.2 rfl)
  ⟨h.1, h.2.1 (by decide), h.2.2 rfl⟩

theorem HasSuffix_sep_iff (path : String) :
    HasSuffix path "/" = true ↔ path.data.reverse.head? = some '/' := by
  rw [HasSuffix_iff]
  constructor
  · rintro ⟨t, ht⟩
    rw [← ht]
    simp
  · intro h
    cases hr : path.data.reverse with
    | nil => simp [hr] at h
    | cons c t =>
      rw [hr] at h
      simp only [List.head?_cons, Option.some.injEq] at h
      refine ⟨t.reverse, ?_⟩
      have := congrArg List.reverse hr
      rw [List.reverse_reverse] at this
      rw [this, h]
      simp

/-- C18: for every path the extension is a suffix of the base name, so it is no longer than
the base name, in bytes and in runes; the slice base[:len(base)-len(ext)] is within bounds and
the temporary path is computed without a panic. -/
theorem Ext_le_Base (path : String) :
    (Ext path).data <:+ (Base path).data ∧
    (Ext path).utf8ByteSize ≤ (Base path).utf8ByteSize ∧
    (Ext path).length ≤ (Base path).length ∧
    (tempPathOf path).isSome = true := by
  have hsuf := Ext_suffix_Base path
  obtain ⟨pre, hpre⟩ := hsuf
  have hguard := (slice_of_suffix (Base path) (Ext path) pre hpre.symm).1
  refine ⟨⟨pre, hpre⟩, hguard, ?_, ?_⟩
  · exact List.IsSuffix.length_le (Ext_suffix_Base path)
  · unfold tempPathOf
    simp only [hguard, if_true, Option.isSome_some]

/-- C14, as stated, fails: for a path that ends in a separator after an element with a dot,
and for the empty path, the temporary path has another extension than the input; and for the
path "/" its file name is "_temp", not "/_temp". -/
theorem tempPath_other_extension :
    (tempPathOf "clips/v1.0/" = some "clips/v1.0/v1.0_temp" ∧
      Ext "clips/v1.0/" = "" ∧ Ext "clips/v1.0/v1.0_temp" = ".0_temp") ∧
    (tempPathOf "" = some "._temp" ∧ Ext "" = "" ∧ Ext "._temp" = "._temp") ∧
    (tempPathOf "/" = some "/_temp" ∧ Base "/" = "/" ∧ Ext "/" = "" ∧
      Base "/_temp" = "_temp") := by
  refine ⟨⟨?_, by decide, by decide⟩, ⟨?_, by decide, by decide⟩,
    ⟨?_, by decide, by decide, by decide⟩⟩
  · have hD : Dir "clips/v1.0/" = "clips/v1.0" := by
      simp [Dir, Clean, cleanLoop, List.dropWhile]
    have hB : Base "clips/v1.0/" = "v1.0" := by decide
    have hE : Ext "clips/v1.0/" = "" := by decide
    have hg : "".utf8ByteSize ≤ "v1.0".utf8ByteSize := by decide
    have hn : String.extract "v1.0" 0 ⟨"v1.0".utf8ByteSize - "".utf8ByteSize⟩ = "v1.0" := by
      decide
    have hJ : Join "clips/v1.0" ("v1.0" ++ "_temp" ++ "") = "clips/v1.0/v1.0_temp" := by
      simp [Join, Clean, cleanLoop]
    unfold tempPathOf
    simp only [hD, hB, hE, hg, if_true, hn, hJ]
  · have hD : Dir "" = "." := by simp [Dir, Clean]
    have hB : Base "" = "." := by decide
    have hE : Ext "" = "" := by decide
    have hg : "".utf8ByteSize ≤ ".".utf8ByteSize := by decide
    have hn : String.extract "." 0 ⟨".".utf8ByteSize - "".utf8ByteSize⟩ = "." := by decide
    have hJ : Join "." ("." ++ "_temp" ++ "") = "._temp" := by
      simp [Join, Clean, cleanLoop]
    unfold tempPathOf
    simp only [hD, hB, hE, hg, if_true, hn, hJ]
  · exact (tempPathOf_slashes "/" (by decide) (by decide)).1

/-- C14, amended: for every input path the temporary path is computed, lies in the same
directory as the input path and differs from the input path; and for every non-empty input
path that does not end in a separator it has the same extension as the input path, and its
file name is the base name of the input with "_temp" inserted immediately before the
extension. -/
theorem tempPath_sibling (path : String) :
    ∃ t : String, tempPathOf path = some t ∧ Dir t = Dir path ∧ t ≠ path ∧
      (path ≠ "" → HasSuffix path "/" = false →
        Ext t = Ext path ∧
        ∃ name : String, Base path = name ++ Ext path ∧
          Base t = name ++ "_temp" ++ Ext path) := by
  rcases Base_cases path with ⟨hne, hall⟩ | hbs
  · obtain ⟨h1, h2, h3, h4, _⟩ := tempPathOf_slashes path hne hall
    refine ⟨"/_temp", h1, by rw [h3, h2], h4, fun _ hsuf => ?_⟩
    exfalso
    have hd : path.data.reverse ≠ [] := fun h =>
      hne (String.ext (List.reverse_eq_nil_iff.1 h))
    have : HasSuffix path "/" = true := by
      rw [HasSuffix_sep_iff]
      cases hr : path.data.reverse with
      | nil => exact absurd hr hd
      | cons c t =>
        have := hall c (List.mem_reverse.1 (by rw [hr]; exact List.mem_cons_self _ _))
        rw [this]; rfl
    rw [this] at hsuf
    cases hsuf
  · obtain ⟨pre, N, hpre, hN, _, h1, h2, h3, h4, h5⟩ := tempPathOf_of_base path hbs
    refine ⟨_, h1, h2, h5, fun hne hsuf => ?_⟩
    have hlast : path.data.reverse.head? ≠ some '/' := by
      intro h
      rw [(HasSuffix_sep_iff path).2 h] at hsuf
      cases hsuf
    obtain ⟨_, _, _, hE⟩ := Base_of_no_trailing_sep path hne hlast
    have hEd : (Ext path).data = extLoop (Base path).data.reverse [] := by rw [hE]; rfl
    constructor
    · rw [h4]
      apply String.ext
      have hb : (Base path).data = pre ++ extLoop (Base path).data.reverse [] := by
        rw [← hEd]; exact hpre
      have := extLoop_insert_temp (Base path).data pre hbs hb
      show extLoop N.data.reverse [] = (Ext path).data
      rw [hN, hEd]
      exact this
    · refine ⟨⟨pre⟩, String.ext (by simp [String.data_append, hpre]), ?_⟩
      rw [h3]
      exact String.ext (by simp [String.data_append, hN])

theorem tempPath_sibling_witness :
    ∃ t : String, tempPathOf "media/1_2_3/media.mp4" = some t ∧
      Dir t = Dir "media/1_2_3/media.mp4" ∧ t ≠ "media/1_2_3/media.mp4" ∧
      Ext t = Ext "media/1_2_3/media.mp4" ∧
      ∃ name : String, Base "media/1_2_3/media.mp4" = name ++ Ext "media/1_2_3/media.mp4" ∧
        Base t = name ++ "_temp" ++ Ext "media/1_2_3/media.mp4" :=
  match tempPath_sibling "media/1_2_3/media.mp4" with
  | ⟨t, h1, h2, h3, h4⟩ => ⟨t, h1, h2, h3, h4 (by decide) (by decide)⟩

/-! ## Re-encoding in place -/

theorem osRemove_other (err : Option String) (fs : FileSystem) (p q : String) (h : q ≠ p) :
    osRemove err fs p q = fs q := by
  cases err <;> simp [osRemove, h]

theorem osRemove_self (fs : FileSystem) (p : String) : osRemove none fs p p = none := by
  simp [osRemove]

theorem osRemove_absent (err : Option String) (fs : FileSystem) (p : String)
    (h : fs p = none) : osRemove err fs p p = none := by
  cases err <;> simp [osRemove, h]

theorem osRemove_self_cases (err : Option String) (fs : FileSystem) (p : String) :
    osRemove err fs p p = none ∨ (err ≠ none ∧ osRemove err fs p p = fs p) := by
  cases err with
  | none => exact Or.inl (osRemove_self fs p)
  | some e => exact Or.inr ⟨by simp, by simp [osRemove]⟩

/-- C15, as stated, fails: on the transcode-failure exit the removal of the temporary file is
attempted, but its failure is only logged, so the file that the failed transcode left at the
temporary path (absent before the call) is still present when the call returns. -/
theorem Reencode_remove_failure_keeps_temp :
    tempPathOf "v.mp4" = some "v_temp.mp4" ∧
    (fun q : String => if q = "v.mp4" then some "hevc video" else none) "v_temp.mp4" = none ∧
    ∃ (fs1 : FileSystem) (err : String),
      ReencodeForTelegramIOS
          ⟨none, some "exit status 1", some "partial video", none, some "permission denied"⟩
          (fun q => if q = "v.mp4" then some "hevc video" else none) "v.mp4" =
        some (fs1, some err) ∧
      fs1 "v_temp.mp4" = some "partial video" := by
  have ht : tempPathOf "v.mp4" = some "v_temp.mp4" := by
    have hD : Dir "v.mp4" = "." := by simp [Dir, Clean, List.dropWhile]
    have hB : Base "v.mp4" = "v.mp4" := by decide
    have hE : Ext "v.mp4" = ".mp4" := by decide
    have hg : ".mp4".utf8ByteSize ≤ "v.mp4".utf8ByteSize := by decide
    have hn : String.extract "v.mp4" 0 ⟨"v.mp4".utf8ByteSize - ".mp4".utf8ByteSize⟩ = "v" := by
      decide
    have hJ : Join "." ("v" ++ "_temp" ++ ".mp4") = "v_temp.mp4" := by
      simp [Join, Clean, cleanLoop]
    unfold tempPathOf
    simp only [hD, hB, hE, hg, if_true, hn, hJ]
  refine ⟨ht, by decide,
    osRemove (some "permission denied")
      (fun q => if q = "v_temp.mp4" then some "partial video"
        else if q = "v.mp4" then some "hevc video" else none) "v_temp.mp4",
    "ffmpeg re-encode failed: " ++ "exit status 1",
    by simp only [ReencodeForTelegramIOS, ht], ?_⟩
  simp [osRemove]

/-- C15, amended: the call returns for every path and every outcome. When the tool is missing
it returns an error and leaves the file system as it was. On every later exit path (transcode
failure, rename failure, success) the removal of the temporary file is attempted: the
temporary file is absent when the call returns, unless that removal fails, in which case the
file the transcode left at the temporary path is still there; on success it is absent in any
case. On every failure path an error is returned and the file at the input path is
unchanged; on success the input path holds the re-encoded file. -/
theorem Reencode_effects (env : ReencodeEnv) (fs : FileSystem) (path : String) :
    ∃ (t : String) (fs1 : FileSystem) (err : Option String),
      tempPathOf path = some t ∧
      ReencodeForTelegramIOS env fs path = some (fs1, err) ∧
      (err = none ↔
        env.lookPath = none ∧ env.run = none ∧ env.output ≠ none ∧ env.rename = none) ∧
      (env.lookPath ≠ none → fs1 = fs) ∧
      (env.lookPath = none →
        fs1 t = none ∨ (env.remove ≠ none ∧ err ≠ none ∧ fs1 t = env.output)) ∧
      (err ≠ none → fs1 path = fs path) ∧
      (err = none → fs1 path = env.output ∧ env.output ≠ none) := by
  obtain ⟨t, ht, _, hne⟩ := tempPathOf_sibling path
  have hne' : path ≠ t := fun h => hne h.symm
  cases hl : env.lookPath with
  | some e =>
    refine ⟨t, fs, some ("ffmpeg not found in PATH: " ++ e), ht, ?_, ?_, ?_, ?_, ?_, ?_⟩
    · simp only [ReencodeForTelegramIOS, hl]
    · simp
    · simp
    · simp
    · simp
    · simp
  | none =>
    have hfail : ∀ out : Option String,
        osRemove env.remove (fun q => if q = t then out else fs q) t t = none ∨
        (env.remove ≠ none ∧
          osRemove env.remove (fun q => if q = t then out else fs q) t t = out) := by
      intro out
      rcases osRemove_self_cases env.remove (fun q => if q = t then out else fs q) t with h | h
      · exact Or.inl h
      · exact Or.inr ⟨h.1, by rw [h.2]; simp⟩
    cases hr : env.run with
    | some e =>
      refine ⟨t, osRemove env.remove (fun q => if q = t then env.output else fs q) t,
        some ("ffmpeg re-encode failed: " ++ e), ht, ?_, ?_, ?_, ?_, ?_, ?_⟩
      · simp only [ReencodeForTelegramIOS, hl, ht, hr]
      · simp
      · simp
      · intro _
        rcases hfail env.output with h | h
        · exact Or.inl h
        · exact Or.inr ⟨h.1, by simp, h.2⟩
      · intro _
        rw [osRemove_other _ _ _ _ hne']
        simp [hne']
      · simp
    | none =>
      cases ho : env.output with
      | none =>
        refine ⟨t, osRemove env.remove (fun q => if q = t then none else fs q) t,
          some ("failed to replace original file: " ++
            ("rename " ++ t ++ " " ++ path ++ ": no such file or directory")), ht,
          ?_, ?_, ?_, ?_, ?_, ?_⟩
        · simp only [ReencodeForTelegramIOS, hl, ht, hr, osRename, ho, if_true]
        · simp
        · simp
        · intro _
          exact Or.inl (osRemove_absent _ _ _ (by simp))
        · intro _
          rw [osRemove_other _ _ _ _ hne']
          simp [hne']
        · simp
      | some content =>
        cases hn : env.rename with
        | some e =>
          refine ⟨t, osRemove env.remove (fun q => if q = t then some content else fs q) t,
            some ("failed to replace original file: " ++ e), ht, ?_, ?_, ?_, ?_, ?_, ?_⟩
          · simp only [ReencodeForTelegramIOS, hl, ht, hr, osRename, ho, hn, if_true]
          · simp
          · simp
          · intro _
            rcases hfail (some content) with h | h
            · exact Or.inl h
            · exact Or.inr ⟨h.1, by simp, h.2⟩
          · intro _
            rw [osRemove_other _ _ _ _ hne']
            simp [hne']
          · simp
        | none =>
          refine ⟨t, osRemove env.remove (fun q => if q = path then some content
              else if q = t then none
              else (fun q => if q = t then some content else fs q) q) t,
            none, ht, ?_, ?_, ?_, ?_, ?_, ?_⟩
          · simp only [ReencodeForTelegramIOS, hl, ht, hr, osRename, ho, hn, if_true]
          · simp
          · simp
          · intro _
            exact Or.inl (osRemove_absent _ _ _ (by simp [hne]))
          · simp
          · intro _
            rw [osRemove_other _ _ _ _ hne']
            simp

theorem Reencode_effects_witness :
    ∃ (t : String) (fs1 : FileSystem),
      tempPathOf "v.mp4" = some t ∧
      ReencodeForTelegramIOS ⟨none, none, some "h264 video", none, none⟩
          (fun q => if q = "v.mp4" then some "hevc video" else none) "v.mp4" =
        some (fs1, none) ∧
      fs1 t = none ∧ fs1 "v.mp4" = some "h264 video" :=
  match Reencode_effects ⟨none, none, some "h264 video", none, none⟩
      (fun q => if q = "v.mp4" then some "hevc video" else none) "v.mp4" with
  | ⟨t, fs1, err, h1, h2, h3, _, h5, _, h7⟩ =>
    have he : err = none := h3.2 ⟨rfl, rfl, by simp, rfl⟩
    ⟨t, fs1, h1, he ▸ h2, (h5 rfl).resolve_right (fun h => h.1 rfl), (h7 he).1⟩

end grabber
